import Mathlib

/-!
Shallow embedding of the update/merge/non-regression pipeline of
`JSCalc/update_indices.py`, together with theorems settling the claims
about its specification.

Modelling conventions:
* Python strings are Lean `String`; per-character operations (slicing,
  splitting, comparison) are carried out on `String.data` so that they
  mirror Python's per-code-point semantics.
* Python `dict` (insertion ordered, last write wins) is an association
  list updated by `updAssoc`.
* Python floats are modelled as exact rationals (`ℚ`).  Arithmetic is
  performed by kernel-reducible wrappers (`qMul`, `qDivNat`, ...) built
  on `Rat.normalize`, so results are in canonical (reduced) form.
* Fallible code (uncaught exceptions) is modelled with `Option`:
  `none` is an escaping exception.
* Network and filesystem effects are oracles passed as arguments: chunk
  responses are `Option (List RawRecord)` (`none` = failed chunk), the
  persisted target file is an `Option String` (its content, `none` =
  missing file), and the success of backup / serialize / write / restore
  steps is a `Bool` per step.
-/

/-! ### Kernel-reducible rational arithmetic -/

/-- Multiplication on `ℚ` that the kernel can evaluate
(`Rat.mul` in core is `@[irreducible]`). -/
def qMul (a b : ℚ) : ℚ :=
  Rat.normalize (a.num * b.num) (a.den * b.den)
    (Nat.mul_ne_zero a.den_nz b.den_nz)

/-- Addition on `ℚ` that the kernel can evaluate. -/
def qAdd (a b : ℚ) : ℚ :=
  Rat.normalize (a.num * (b.den : ℤ) + b.num * (a.den : ℤ)) (a.den * b.den)
    (Nat.mul_ne_zero a.den_nz b.den_nz)

/-- Negation on `ℚ`. -/
def qNeg (a : ℚ) : ℚ :=
  ⟨-a.num, a.den, a.den_nz, by simpa using a.reduced⟩

/-- Subtraction on `ℚ`. -/
def qSub (a b : ℚ) : ℚ := qAdd a (qNeg b)

/-- Absolute value on `ℚ`. -/
def qAbs (a : ℚ) : ℚ :=
  ⟨(a.num.natAbs : ℤ), a.den, a.den_nz, by rw [Int.natAbs_ofNat]; exact a.reduced⟩

/-- Division of a `ℚ` by a nonzero natural number, kernel-evaluable. -/
def qDivNat (a : ℚ) (n : ℕ) (h : n ≠ 0) : ℚ :=
  Rat.normalize a.num (a.den * n) (Nat.mul_ne_zero a.den_nz h)

/-- An integer as a `ℚ`. -/
def qOfInt (n : ℤ) : ℚ := ⟨n, 1, one_ne_zero, Nat.coprime_one_right _⟩

/-- `10 ^ e` as a `ℚ`, for an integer exponent `e`. -/
def qPow10 (e : ℤ) : ℚ :=
  if 0 ≤ e then ⟨(10 ^ e.toNat : ℕ), 1, one_ne_zero, Nat.coprime_one_right _⟩
  else ⟨1, 10 ^ (-e).toNat, pow_ne_zero _ (by norm_num), Nat.coprime_one_left _⟩

/-- Strict comparison on `ℚ` as a boolean (denominators are positive, so
cross-multiplying is sound). -/
def qLtB (a b : ℚ) : Bool := a.num * (b.den : ℤ) < b.num * (a.den : ℤ)

/-! ### Characters, digit strings, Python-style string comparison -/

/-- Decimal digit character for `n % 10` (Python's `"%d"` digits). -/
def digitCh (n : ℕ) : Char := Char.ofNat (48 + n % 10)

/-- Numeric value of a digit character. -/
def digitVal (c : Char) : ℕ := c.toNat - 48

/-- Value of a list of decimal digit characters, most significant first. -/
def digitsToNat (cs : List Char) : ℕ :=
  cs.foldl (fun a c => a * 10 + digitVal c) 0

/-- Python's `f"{n:02d}"` for `n ≤ 99` (all uses satisfy this bound). -/
def pad2L (n : ℕ) : List Char := [digitCh (n / 10), digitCh n]

/-- Python's `f"{n:04d}"` for `n ≤ 9999` (all uses satisfy this bound). -/
def pad4L (n : ℕ) : List Char :=
  [digitCh (n / 1000), digitCh (n / 100), digitCh (n / 10), digitCh n]

/-- Lexicographic strict comparison of char lists by code point: exactly
Python's string `<`. -/
def listLtB : List Char → List Char → Bool
  | [], [] => false
  | [], _ :: _ => true
  | _ :: _, [] => false
  | a :: as, b :: bs =>
    if a.toNat < b.toNat then true
    else if b.toNat < a.toNat then false
    else listLtB as bs

/-- Python string `<`. -/
def strLtB (s t : String) : Bool := listLtB s.data t.data

/-- Split a char list at every occurrence of `sep`: Python's
`str.split(sep)` for a one-character separator. -/
def splitOnChar (sep : Char) : List Char → List (List Char)
  | [] => [[]]
  | c :: cs =>
    if c = sep then [] :: splitOnChar sep cs
    else match splitOnChar sep cs with
      | [] => [[c]]
      | p :: ps => (c :: p) :: ps

/-- The `\s` class of Python `re` / `str.strip()`, restricted to ASCII
whitespace (the files handled by the program are ASCII). -/
def isSpaceB (c : Char) : Bool :=
  c = ' ' || c = '\t' || c = '\n' || c = '\r' || c = '\x0b' || c = '\x0c'

/-- Python `str.strip()`. -/
def stripWs (cs : List Char) : List Char :=
  ((cs.dropWhile isSpaceB).reverse.dropWhile isSpaceB).reverse

/-! ### Dates (`datetime.date`, `strptime` with format `%d/%m/%Y`) -/

/-- A Python `datetime.date` value. Construction sites always validate
(`strptime`, or literal `date(y, m, d)` calls with valid fields). -/
structure Date where
  year : ℕ
  month : ℕ
  day : ℕ
deriving DecidableEq, Repr

/-- Numeric key `yyyymmdd`; on valid dates its order is exactly
`datetime.date`'s (lexicographic) order. -/
def dateKey (d : Date) : ℕ := d.year * 10000 + d.month * 100 + d.day

/-- Python date `<=`, via `dateKey`. -/
def dateLe (a b : Date) : Prop := dateKey a ≤ dateKey b

/-- Python date `<`, via `dateKey`. -/
def dateLt (a b : Date) : Prop := dateKey a < dateKey b

instance : DecidableRel dateLe := fun a b => Nat.decLe (dateKey a) (dateKey b)
instance : DecidableRel dateLt := fun a b => Nat.decLt (dateKey a) (dateKey b)

/-- Gregorian leap year. -/
def isLeap (y : ℕ) : Bool := y % 4 = 0 && (y % 100 ≠ 0 || y % 400 = 0)

/-- Days in a month (Python `calendar` rules, used by `date()`
validation inside `strptime`). -/
def daysInMonth (y m : ℕ) : ℕ :=
  if m = 2 then (if isLeap y then 29 else 28)
  else if m = 4 ∨ m = 6 ∨ m = 9 ∨ m = 11 then 30
  else 31

/-- One-or-two-digit numeric field of `strptime` (`%d` / `%m`): all
digits, value in `[lo, hi]`, at most two characters. -/
def fieldNum (lo hi : ℕ) (cs : List Char) : Option ℕ :=
  if cs ≠ [] ∧ cs.length ≤ 2 ∧ cs.all Char.isDigit ∧
      lo ≤ digitsToNat cs ∧ digitsToNat cs ≤ hi then
    some (digitsToNat cs)
  else none

/-- `datetime.strptime(s, "%d/%m/%Y").date()`: day and month are 1-2
digit fields, the year exactly four digits, and the triple must be a
valid calendar date (otherwise `strptime` raises, modelled as `none`). -/
def parseDateDMY (s : String) : Option Date :=
  match splitOnChar '/' s.data with
  | [ds, ms, ys] =>
    match fieldNum 1 31 ds, fieldNum 1 12 ms with
    | some d, some m =>
      if ys.length = 4 ∧ ys.all Char.isDigit ∧ 1 ≤ digitsToNat ys ∧
          d ≤ daysInMonth (digitsToNat ys) m then
        some ⟨digitsToNat ys, m, d⟩
      else none
    | _, _ => none
  | _ => none

/-- `d.strftime("%Y-%m-01")` (config `OUT_DATE_ISO`): ISO first of
month.  The year is rendered four digits zero-padded (years produced by
`parseDateDMY` are at most 9999). -/
def isoMonthStart (d : Date) : String :=
  ⟨pad4L d.year ++ '-' :: pad2L d.month ++ ['-', '0', '1']⟩

/-- `f"{d.year:04d}-{d.month:02d}"`: the `month_key_iso` of
`merge_poup_series` and the bucket key of
`fetch_selic1178_monthly_pairs`. -/
def month_key_iso (d : Date) : String :=
  ⟨pad4L d.year ++ '-' :: pad2L d.month⟩

/-- `month_key(date_iso) = date_iso[:7]` from the source. -/
def month_key (s : String) : String := ⟨s.data.take 7⟩

/-! ### Python `float(...)` literals, as exact rationals -/

/-- Characters allowed in the regex factor group `[0-9.]`. -/
def isFacChar (c : Char) : Bool := c.isDigit || c = '.'

/-- Parse an optional exponent part `e±ddd` (already past the mantissa).
Returns the exponent, or `none` if the remaining text is not a valid
exponent / is nonempty garbage. -/
def parseExpPart : List Char → Option ℤ
  | [] => some 0
  | c :: cs =>
    if c = 'e' ∨ c = 'E' then
      let (sgn, ds) : ℤ × List Char :=
        match cs with
        | '+' :: r => (1, r)
        | '-' :: r => (-1, r)
        | r => (1, r)
      if ds ≠ [] ∧ ds.all Char.isDigit then some (sgn * digitsToNat ds)
      else none
    else none

/-- Python's `float(s)` on decimal literals, as an exact rational:
optional sign, digits with at most one decimal point (at least one
digit), optional exponent.  Surrounding whitespace is stripped (the
source always calls `.strip()` first anyway).  `inf`/`nan` words and
digit-group underscores, which no data source here produces, are not
modelled and yield `none`. -/
def parseFloat (s : String) : Option ℚ :=
  let cs := stripWs s.data
  let (sgn, cs1) : ℤ × List Char :=
    match cs with
    | '+' :: r => (1, r)
    | '-' :: r => (-1, r)
    | r => (1, r)
  let intPart := cs1.takeWhile Char.isDigit
  let rest1 := cs1.dropWhile Char.isDigit
  let (fracPart, rest2) : List Char × List Char :=
    match rest1 with
    | '.' :: r => (r.takeWhile Char.isDigit, r.dropWhile Char.isDigit)
    | r => ([], r)
  if intPart ++ fracPart = [] then none
  else
    match parseExpPart rest2 with
    | some e =>
      some (qMul (qOfInt (sgn * (digitsToNat (intPart ++ fracPart) : ℤ)))
        (qPow10 (e - fracPart.length)))
    | none => none

/-- `float(str(raw_val).replace(",", ".").strip())` from the source. -/
def parseValComma (s : String) : Option ℚ :=
  parseFloat ⟨s.data.map (fun c => if c = ',' then '.' else c)⟩

/-! ### Python dicts as insertion-ordered association lists -/

/-- One assignment `m[k] = v` on a Python dict: replaces in place if the
key is present, appends otherwise. -/
def updAssoc {K V : Type} [DecidableEq K] : List (K × V) → K → V → List (K × V)
  | [], k, v => [(k, v)]
  | (k', v') :: rest, k, v =>
    if k' = k then (k', v) :: rest else (k', v') :: updAssoc rest k v

/-- Dict lookup. -/
def lookupA {K V : Type} [DecidableEq K] : List (K × V) → K → Option V
  | [], _ => none
  | (k', v') :: rest, k => if k' = k then some v' else lookupA rest k

/-- A loop `for a in l: if f a = some (k, v): m[k] = v` over a dict `m`:
the shape of every deduplication pass in the source. -/
def dictFold {α K V : Type} [DecidableEq K]
    (f : α → Option (K × V)) (l : List α) (m : List (K × V)) : List (K × V) :=
  l.foldl (fun acc a => match f a with
    | some (k, v) => updAssoc acc k v
    | none => acc) m

/-- One append `m[k].append(v)` on a `defaultdict(list)`. -/
def updMulti {K V : Type} [DecidableEq K] : List (K × List V) → K → V → List (K × List V)
  | [], k, v => [(k, [v])]
  | (k', vs) :: rest, k, v =>
    if k' = k then (k', vs ++ [v]) :: rest else (k', vs) :: updMulti rest k v

/-! ### Stable sorting (Python `sorted` / `list.sort` with a key) -/

/-- Insert `x` after all elements whose key is not greater: the
insertion step of a stable ascending sort. -/
def insertSorted {α K : Type} (lt : K → K → Bool) (key : α → K) (x : α) :
    List α → List α
  | [] => [x]
  | y :: ys =>
    if lt (key x) (key y) then x :: y :: ys
    else y :: insertSorted lt key x ys

/-- Stable ascending sort by key, with comparator `lt`: Python's
`sorted(l, key=key)`. -/
def sortByKey {α K : Type} (lt : K → K → Bool) (key : α → K) (l : List α) : List α :=
  l.foldl (fun acc x => insertSorted lt key x acc) []

/-! ### Raw records and the fetchers -/

/-- One JSON item `{"data": ..., "valor": ...}` from the SGS API.
`none` in a field models a missing key (`dict.get` returns `None`). -/
structure RawRecord where
  data : Option String
  valor : Option String
deriving DecidableEq, Repr

/-- `it.get("data")` truthiness: `if k:` / `if it.get("data"):`. -/
def truthyData (r : RawRecord) : Option String :=
  match r.data with
  | some s => if s = "" then none else some s
  | none => none

/-- Date of a record under `%d/%m/%Y` (sites calling this have already
established that the field is present). -/
def recDate (r : RawRecord) : Option Date := parseDateDMY (r.data.getD "")

/-- Sort key used for `out.sort(key=lambda d: to_date(d["data"]))`; the
call sites guard that every record's date parses, so the default is
never reached. -/
def recDateKey (r : RawRecord) : ℕ := dateKey ((recDate r).getD ⟨0, 0, 0⟩)

/-- The pure core of `fetch_sgs_series`: given the year-chunk responses
(`none` = HTTP failure or non-list body, which the source logs and
skips), union them, deduplicate by the `data` field with the later
item winning, drop falsy keys, and sort ascending by parsed date.
`none` models the `ValueError` the final sort raises when a kept date
string does not parse. -/
def fetch_sgs_series (chunks : List (Option (List RawRecord))) :
    Option (List RawRecord) :=
  let allItems := (chunks.filterMap id).flatten
  let seen := dictFold (fun r => some (r.data, r.valor)) allItems []
  let out := seen.filterMap (fun p =>
    match p.1 with
    | some s => if s = "" then none else some (⟨some s, p.2⟩ : RawRecord)
    | none => none)
  if out.all (fun r => (recDate r).isSome) then
    some (sortByKey (fun a b => decide (a < b)) recDateKey out)
  else none

/-- One chunk window of `fetch_sgs_series_range`: start at `date(y,1,1)`
clamped up to `d0`, end at `date(min(y+step-1, d1.year), 12, 31)`
clamped down to `d1`. -/
def rangeWindow (d0 d1 : Date) (step y : ℕ) : Date × Date :=
  let ini := if dateLt ⟨y, 1, 1⟩ d0 then d0 else ⟨y, 1, 1⟩
  let fim : Date := ⟨min (y + step - 1) d1.year, 12, 31⟩
  (ini, if dateLt d1 fim then d1 else fim)

/-- The chunk windows of `fetch_sgs_series_range`'s `while` loop
(`y` from `d0.year` in increments of `step_years`).  The loop does not
terminate for `step_years = 0`; no call site uses that, and it is
modelled as producing no windows.  The fuel `d1.year + 1 - d0.year`
bounds the iteration count whenever `step ≥ 1`. -/
def chunkWindows (d0 d1 : Date) (step : ℕ) : List (Date × Date) :=
  if step = 0 then [] else go (d1.year + 1 - d0.year) d0.year
where
  go : ℕ → ℕ → List (Date × Date)
    | 0, _ => []
    | fuel + 1, y =>
      if y ≤ d1.year then rangeWindow d0 d1 step y :: go fuel (y + step)
      else []

/-- The pure dedup-and-sort tail of `fetch_sgs_series_range` (records
with a falsy `data` are dropped at insertion here, unlike
`fetch_sgs_series`). -/
def fetchRangeTail (allItems : List RawRecord) : Option (List RawRecord) :=
  let seen := dictFold
    (fun r => (truthyData r).map (fun s => (s, r.valor))) allItems []
  let out := seen.map (fun p => (⟨some p.1, p.2⟩ : RawRecord))
  if out.all (fun r => (recDate r).isSome) then
    some (sortByKey (fun a b => decide (a < b)) recDateKey out)
  else none

/-- `fetch_sgs_series_range(serie, start_date, end_date, step_years)`,
with the network as the oracle `resp`: the response to the chunk
request for window `(a, b)` of series `serie`.  The `strptime` calls on
the bounds raise (= `none`) when they do not parse. -/
def fetch_sgs_series_range (resp : String → Date → Date → Option (List RawRecord))
    (serie startDate endDate : String) (step : ℕ) : Option (List RawRecord) :=
  match parseDateDMY startDate, parseDateDMY endDate with
  | some d0, some d1 =>
    let allItems := (chunkWindows d0 d1 step).foldl
      (fun acc w => match resp serie w.1 w.2 with
        | some js => acc ++ js
        | none => acc) []
    fetchRangeTail allItems
  | _, _ => none

/-! ### The factor normalizer `to_pairs` -/

/-- The loop body of `to_pairs` for one record: `None`/empty date or
value, or a date or value that fails to parse, drops the record
(`continue`); otherwise emit `(d.strftime("%Y-%m-01"), float(...)/100)`. -/
def convertRecord (it : RawRecord) : Option (String × ℚ) :=
  match it.data, it.valor with
  | some s, some vs =>
    if s = "" ∨ vs = "" then none
    else
      match parseDateDMY s, parseValComma vs with
      | some d, some v =>
        some (isoMonthStart d, qDivNat v 100 (by norm_num))
      | _, _ => none
  | _, _ => none

/-- `to_pairs(items)`: map each record, deduplicate by the normalized
date (`uniq = {d: v for d, v in out}`, later wins) and sort ascending
by the date string. -/
def to_pairs (items : List RawRecord) : List (String × ℚ) :=
  let out := items.filterMap convertRecord
  let uniq := dictFold (fun p => some p) out []
  sortByKey strLtB Prod.fst uniq

/-! ### `fetch_selic1178_monthly_pairs`: daily-to-monthly aggregation -/

/-- The daily factor `(1.0 + r_aa) ** (1.0/252.0) - 1.0`.  The real
252-nd root is not rational; the aggregator below is parametrized by
this map, whose pointwise value is irrelevant to every stated claim
(they only concern the dates of the output). -/
def dailyFactorOf (fd : ℚ → ℚ) (r_aa : ℚ) : ℚ := fd r_aa

/-- Bucket loop of `fetch_selic1178_monthly_pairs`: group the daily
factors by `f"{d.year:04d}-{d.month:02d}"`, skipping records with falsy
date, missing/empty value, or unparseable date/value. -/
def selicBuckets (fd : ℚ → ℚ) (items : List RawRecord) :
    List (String × List ℚ) :=
  items.foldl (fun buckets it =>
    match it.data, it.valor with
    | some s, some vs =>
      if s = "" ∨ vs = "" then buckets
      else
        match parseDateDMY s, parseValComma vs with
        | some d, some v =>
          updMulti buckets (month_key_iso d)
            (dailyFactorOf fd (qDivNat v 100 (by norm_num)))
        | _, _ => buckets
    | _, _ => buckets) []

/-- Compound a month's daily factors: `prod(1 + fd) - 1`. -/
def compoundMonth (fds : List ℚ) : ℚ :=
  qSub (fds.foldl (fun acc f => qMul acc (qAdd 1 f)) 1) 1

/-- `fetch_selic1178_monthly_pairs`, past the fetch: for each bucket
key in sorted order emit `(f"{key}-01", prod(1+fd)-1)`. -/
def fetch_selic1178_monthly_pairs (fd : ℚ → ℚ) (items : List RawRecord) :
    List (String × ℚ) :=
  if items = [] then []
  else
    let buckets := selicBuckets fd items
    (sortByKey listLtB id (buckets.map (fun b => b.1.data))).map
      (fun k => (⟨k ++ ['-', '0', '1']⟩,
        compoundMonth ((lookupA buckets ⟨k⟩).getD [])))

/-! ### The series merger `merge_poup_series` -/

/-- Parse one record for the merger: `it["data"]` raises on a missing
key and `parse_date` raises on a malformed date (both `none` here);
otherwise yield the record's month key and its `valor`. -/
def mergeParse (it : RawRecord) : Option (String × Option String) :=
  match it.data with
  | some s => (parseDateDMY s).map (fun d => (month_key_iso d, it.valor))
  | none => none

/-- Rebuild the output record for month key `mk`:
`y, m = mk.split("-"); {"data": f"01/{m}/{y}", "valor": v}`.  A key
that does not split into exactly two parts would make the unpacking
raise; keys are always of the form `YYYY-MM` here. -/
def mergeOutRecord (mk : String) (v : Option String) : Option RawRecord :=
  match splitOnChar '-' mk.data with
  | [ys, ms] => some ⟨some ⟨'0' :: '1' :: '/' :: ms ++ '/' :: ys⟩, v⟩
  | _ => none

/-- `merge_poup_series` with the cutover month as a parameter (the
source hard-codes `cutoff_month = "2012-06"`): old records keep months
strictly below the cutover, new records keep months at or above it
(later records of a list overwrite earlier ones with the same month),
and the result lists the months in ascending order with the date reset
to the first of the month. -/
def mergePoupAux (cutoffMonth : String) (itemsOld itemsNew : List RawRecord) :
    Option (List RawRecord) := do
  let oldParsed ← itemsOld.mapM mergeParse
  let newParsed ← itemsNew.mapM mergeParse
  let m1 := dictFold (fun p =>
    if strLtB p.1 cutoffMonth then some (p.1, p.2) else none) oldParsed []
  let m2 := dictFold (fun p =>
    if strLtB p.1 cutoffMonth then none else some (p.1, p.2)) newParsed m1
  (sortByKey listLtB id (m2.map (fun b => b.1.data))).mapM
    (fun k => mergeOutRecord ⟨k⟩ ((lookupA m2 ⟨k⟩).getD none))

/-- `merge_poup_series(items_old, items_new)` from the source. -/
def merge_poup_series (itemsOld itemsNew : List RawRecord) :
    Option (List RawRecord) :=
  mergePoupAux "2012-06" itemsOld itemsNew

/-- What the spec says `merge(S, S, cutover)` must equal, written from
the spec's words and not from the merger: `S` deduplicated by month
(later record wins), each date normalized to the first day of its
month, sorted ascending. -/
def monthNormalizeSpec (items : List RawRecord) : Option (List RawRecord) := do
  let parsed ← items.mapM mergeParse
  let m := dictFold (fun p => some (p.1, p.2)) parsed []
  (sortByKey listLtB id (m.map (fun b => b.1.data))).mapM
    (fun k => mergeOutRecord ⟨k⟩ ((lookupA m ⟨k⟩).getD none))

/-! ### The non-regression checker -/

/-- Period keys of a pair series under a mode: `month_key(d)` in
`month` mode, the full date string otherwise. -/
def periodKeys (pairs : List (String × ℚ)) (mode : String) : List String :=
  if mode = "month" then pairs.map (fun p => month_key p.1)
  else pairs.map Prod.fst

/-- `lost = sorted(list(old_keys - new_keys))` of `non_regression`:
the set difference as a sorted duplicate-free list. -/
def nrLost (old new : List (String × ℚ)) (mode : String) : List String :=
  let oldKeys := periodKeys old mode
  let newKeys := periodKeys new mode
  sortByKey strLtB id ((oldKeys.filter (fun k => ¬ k ∈ newKeys)).dedup)

/-- Tolerance `1e-12` of the changed-values sub-mode. -/
def nrTol : ℚ := ⟨1, 1000000000000, by norm_num, by norm_num⟩

/-- Changed periods of the `TREAT_CHANGED_OLD_VALUES_AS_ERROR`
sub-mode: keys present in both maps whose values differ by more than
the tolerance; in `month` mode the maps keep the last pair of each
month. -/
def nrChanged (old new : List (String × ℚ)) (mode : String) : List String :=
  let keyOf : String × ℚ → String :=
    if mode = "month" then (fun p => month_key p.1) else Prod.fst
  let oldMap := dictFold (fun p => some (keyOf p, p.2)) old []
  let newMap := dictFold (fun p => some (keyOf p, p.2)) new []
  oldMap.filterMap (fun p =>
    match lookupA newMap p.1 with
    | some nv => if qLtB nrTol (qAbs (qSub p.2 nv)) then some p.1 else none
    | none => none)

/-- `non_regression(old, new, code, mode)` with the config flag
`TREAT_CHANGED_OLD_VALUES_AS_ERROR` as the argument `flag` (its
configured default is `False`): fail when keys were lost, else (under
the flag) when old values changed beyond the tolerance. -/
def non_regression (flag : Bool) (old new : List (String × ℚ))
    (mode : String) : Bool :=
  if nrLost old new mode ≠ [] then false
  else if flag then nrChanged old new mode = []
  else true

/-! ### The `PAIR_RE` regex and `read_js_pairs` -/

/-- Expect the literal `lit` as a prefix, returning the rest. -/
def expectLit : List Char → List Char → Option (List Char)
  | [], cs => some cs
  | _ :: _, [] => none
  | l :: ls, c :: cs => if c = l then expectLit ls cs else none

/-- Expect exactly `n` decimal digits, returning them and the rest. -/
def takeDigits : ℕ → List Char → Option (List Char × List Char)
  | 0, cs => some ([], cs)
  | _ + 1, [] => none
  | n + 1, c :: cs =>
    if c.isDigit then
      (takeDigits n cs).map (fun p => (c :: p.1, p.2))
    else none

/-- A quote character (the regex class `['"]`; opening and closing
quotes are matched independently). -/
def isQuoteB (c : Char) : Bool := c = '\x27' || c = '"'

/-- Match the date group `['"](\d{4}-\d{2}-\d{2})['"]`, returning the
captured ten characters and the rest. -/
def matchDateGroup (cs : List Char) : Option (List Char × List Char) :=
  match cs with
  | q :: cs1 =>
    if isQuoteB q then
      (takeDigits 4 cs1).bind (fun p1 =>
      (expectLit ['-'] p1.2).bind (fun r2 =>
      (takeDigits 2 r2).bind (fun p2 =>
      (expectLit ['-'] p2.2).bind (fun r4 =>
      (takeDigits 2 r4).bind (fun p3 =>
        match p3.2 with
        | q2 :: r6 =>
          if isQuoteB q2 then
            some (p1.1 ++ '-' :: p2.1 ++ '-' :: p3.1, r6)
          else none
        | [] => none)))))
    else none
  | [] => none

/-- Attempt to match `PAIR_RE` at the head of `cs`:
`\{\s*date\s*:\s*['"](\d{4}-\d{2}-\d{2})['"]\s*,\s*factor\s*:\s*([0-9.]+)\s*\}`.
Every boundary in the pattern separates disjoint character classes, so
the regex engine's greedy matching never backtracks and this
deterministic matcher is exact.  Returns the two captured groups and
the rest of the input after the match. -/
def matchAt (cs : List Char) : Option (String × String × List Char) :=
  match cs with
  | c :: cs1 =>
    if c = '\x7b' then
      (expectLit ['d', 'a', 't', 'e'] (cs1.dropWhile isSpaceB)).bind (fun r2 =>
      (expectLit [':'] (r2.dropWhile isSpaceB)).bind (fun r4 =>
      (matchDateGroup (r4.dropWhile isSpaceB)).bind (fun p =>
      (expectLit [','] (p.2.dropWhile isSpaceB)).bind (fun r6 =>
      (expectLit ['f', 'a', 'c', 't', 'o', 'r'] (r6.dropWhile isSpaceB)).bind (fun r8 =>
      (expectLit [':'] (r8.dropWhile isSpaceB)).bind (fun r9 =>
        let r10 := r9.dropWhile isSpaceB
        let fs := r10.takeWhile isFacChar
        let r11 := r10.dropWhile isFacChar
        if fs = [] then none
        else
          (expectLit ['\x7d'] (r11.dropWhile isSpaceB)).map
            (fun r12 => (⟨p.1⟩, ⟨fs⟩, r12))))))))
    else none
  | [] => none

/-- Fuelled scanner: at each position try `matchAt`; on a match emit
the groups and continue after the match, otherwise advance one
character.  This is `re.finditer` for `PAIR_RE` (whose matches always
begin with an unconsumed opening brace). -/
def scanF : ℕ → List Char → List (String × String)
  | 0, _ => []
  | _ + 1, [] => []
  | fuel + 1, c :: cs =>
    match matchAt (c :: cs) with
    | some (d, f, rest) => (d, f) :: scanF fuel rest
    | none => scanF fuel cs

/-- All `PAIR_RE` matches of a text, in order. -/
def scan (cs : List Char) : List (String × String) := scanF cs.length cs

/-- `read_js_pairs(path)`: a missing file yields no pairs; otherwise
collect `(m.group(1), float(m.group(2)))` for every regex match and
sort by the date string.  `none` models the uncaught `ValueError` that
`float` raises when a matched factor group is not a valid float
literal. -/
def read_js_pairs (content : Option String) : Option (List (String × ℚ)) :=
  match content with
  | none => some []
  | some c =>
    let ms := scan c.data
    if ms.all (fun p => (parseFloat p.2).isSome) then
      some (sortByKey strLtB Prod.fst
        (ms.map (fun p => (p.1, (parseFloat p.2).getD 0))))
    else none

/-! ### Serialization and the state-machine cores of the pipelines -/

/-- Decimal digits of a natural number (plain base-10 rendering). -/
def natDigits (n : ℕ) : List Char :=
  if n < 10 then [digitCh n]
  else natDigits (n / 10) ++ [digitCh n]
decreasing_by exact Nat.div_lt_self (by omega) (by norm_num)

/-- Python's `f"{v:.6f}"` up to the rounding mode on the binary float
(modelled as round-half-up on the exact rational; no stated claim
depends on the rendered digits). -/
def formatFixed6 (v : ℚ) : String :=
  let scaled : ℤ := ⌊qAdd (qMul v 1000000) (qDivNat 1 2 (by norm_num))⌋
  let n := scaled.natAbs
  let sgn : List Char := if scaled < 0 then ['-'] else []
  let frac := natDigits (n % 1000000)
  ⟨sgn ++ natDigits (n / 1000000) ++
    '.' :: (List.replicate (6 - frac.length) '0' ++ frac)⟩

/-- `serialize_js(const_name, pairs)`: the persisted file content. -/
def serialize_js (constName : String) (pairs : List (String × ℚ)) : String :=
  let lines := pairs.map (fun p =>
    "  \x7b date: \x27" ++ p.1 ++ "\x27, factor: " ++ formatFixed6 p.2 ++ " \x7d,")
  "const " ++ constName ++ " = [\n" ++ String.intercalate "\n" lines ++ "\n];\n"

/-- Filesystem state relevant to one pipeline run: the content of the
target file (`none` = file does not exist). -/
abbrev FsState : Type := Option String

/-- Outcome oracles for one pipeline run.  `backupOk` is whether
`backup_file`'s copy succeeds when the target exists (it returns `None`
on a missing target or a failed copy, and never raises); `serializeOk`
whether `serialize_js` raises; `writeOk` whether `write_atomic`'s
open/write/replace raises (the `os.replace` rename is atomic, so a
failed write leaves the target untouched); `restoreOk` whether
`restore_backup`'s copy succeeds; `corrupted` is the unknown partial
target content after a FAILED restore copy. -/
structure RunOracle where
  backupOk : Bool
  serializeOk : Bool
  writeOk : Bool
  restoreOk : Bool
  corrupted : Option String

/-- The shared tail of `update_selic` / `update_poupanca` from
`read_js_pairs(target)` on: read the old pairs (an unparseable factor
in the old file raises out of the pipeline, `none`), take the backup,
run the non-regression gate, serialize, write atomically, restore on a
failed write.  Returns the exit code and the final target content. -/
def pipelineTail (constName : String) (pairsNew : List (String × ℚ))
    (fs : FsState) (o : RunOracle) (nrMode : String) (nrFlag : Bool) :
    Option (ℤ × FsState) :=
  match read_js_pairs fs with
  | none => none
  | some pairsOld =>
    let bak : Option String := if o.backupOk then fs else none
    if pairsOld ≠ [] ∧ non_regression nrFlag pairsOld pairsNew nrMode = false then
      some (3, fs)
    else if o.serializeOk = false then some (4, fs)
    else
      let js := serialize_js constName pairsNew
      if o.writeOk = false then
        match bak with
        | some c => if o.restoreOk then some (5, some c) else some (5, o.corrupted)
        | none => some (5, fs)
      else some (0, some js)

/-- `update_selic(start_year, nr_mode, source)` past the fetch: the
fetch results are the oracles `pairs1178` (source `"1178"`, already
aggregated monthly pairs) and `items4390` (any other source, raw
records to normalize).  Exit codes: 1 empty fetch, 2 empty
normalization, 3 non-regression, 4 serialization, 5 write. -/
def update_selic (source : String) (pairs1178 : List (String × ℚ))
    (items4390 : List RawRecord) (fs : FsState) (o : RunOracle)
    (nrMode : String) (nrFlag : Bool) : Option (ℤ × FsState) :=
  if source = "1178" then
    if pairs1178 = [] then some (1, fs)
    else if pairs1178 = [] then some (2, fs)
    else pipelineTail "selicFactors" pairs1178 fs o nrMode nrFlag
  else
    if items4390 = [] then some (1, fs)
    else
      let pairsNew := to_pairs items4390
      if pairsNew = [] then some (2, fs)
      else pipelineTail "selicFactors" pairsNew fs o nrMode nrFlag

/-- `update_poupanca(start_year, nr_mode)` past the fetch-and-merge:
`items` is the merged candidate list (`merge_poup_series` output).
Exit codes as in `update_selic`. -/
def update_poupanca (items : List RawRecord) (fs : FsState) (o : RunOracle)
    (nrMode : String) (nrFlag : Bool) : Option (ℤ × FsState) :=
  if items = [] then some (1, fs)
  else
    let pairsNew := to_pairs items
    if pairsNew = [] then some (2, fs)
    else pipelineTail "poupancaFactors" pairsNew fs o nrMode nrFlag

/-- The fetch-and-merge head of `update_poupanca`: the new series 196
is requested only for the window `01/06/2012 .. 25/09/2025` (step two
years) and only when `start_year <= 2012`, the old series 7828 only for
`01/01/1991 .. 10/05/2012`; the two are then merged. -/
def updatePoupancaItems (resp : String → Date → Date → Option (List RawRecord))
    (startYear : ℤ) : Option (List RawRecord) := do
  let itemsNew ←
    if startYear ≤ 2012 then
      fetch_sgs_series_range resp "196" "01/06/2012" "25/09/2025" 2
    else pure []
  let itemsOld ←
    if startYear ≤ 2012 then
      fetch_sgs_series_range resp "7828" "01/01/1991" "10/05/2012" 2
    else pure []
  merge_poup_series itemsOld itemsNew

/-! ### Characterization helpers used by the theorem statements -/

/-- Keys of an association list. -/
def keysOf {K V : Type} (m : List (K × V)) : List K := m.map Prod.fst

/-- The value of the last element of `l` that `f` maps to key `k`
(`none` if there is none): what a Python dict built by a `dictFold`
loop holds at `k`. -/
def lastVal {α K V : Type} [DecidableEq K] (f : α → Option (K × V)) :
    List α → K → Option V
  | [], _ => none
  | a :: t, k =>
    Option.or (lastVal f t k)
      (match f a with
       | some (k', v) => if k' = k then some v else none
       | none => none)

/-- Last `valor` among the records of `l` whose `data` field is `k`
(`fetch_sgs_series` keys records by `it.get("data")`, which may be
`None`). -/
def lastDataVal (l : List RawRecord) (k : Option String) : Option (Option String) :=
  lastVal (fun r => some (r.data, r.valor)) l k

/-- The month key of a record under the merger's parsing. -/
def recMonthKey (r : RawRecord) : Option String := (recDate r).map month_key_iso

/-- The `valor` of the last record of `l` falling in month `mk`
(the record the merger's last-wins dedup keeps for that month). -/
def lastMonthVal (l : List RawRecord) (mk : String) : Option (Option String) :=
  ((l.filter (fun it => decide ((mergeParse it).map Prod.fst = some mk))).getLast?).map
    RawRecord.valor

/-- Declarative reading of `PAIR_RE`: `sub` matches the pattern
`\{\s*date\s*:\s*['"](\d{4}-\d{2}-\d{2})['"]\s*,\s*factor\s*:\s*([0-9.]+)\s*\}`
with captured groups `d` and `f`. -/
def PatMatch (sub : List Char) (d f : String) : Prop :=
  ∃ (w1 w2 w3 w4 w5 w6 w7 w8 : List Char) (q1 q2 : Char)
    (ys ms ds fs : List Char),
    sub = '\x7b' :: (w1 ++ ['d', 'a', 't', 'e'] ++ w2 ++ ':' :: w3 ++
      q1 :: (ys ++ '-' :: ms ++ '-' :: ds) ++ q2 :: w4 ++ ',' :: w5 ++
      ['f', 'a', 'c', 't', 'o', 'r'] ++ w6 ++ ':' :: w7 ++ fs ++ w8 ++ ['\x7d']) ∧
    w1.all isSpaceB = true ∧ w2.all isSpaceB = true ∧ w3.all isSpaceB = true ∧
    w4.all isSpaceB = true ∧ w5.all isSpaceB = true ∧ w6.all isSpaceB = true ∧
    w7.all isSpaceB = true ∧ w8.all isSpaceB = true ∧
    isQuoteB q1 = true ∧ isQuoteB q2 = true ∧
    ys.length = 4 ∧ ms.length = 2 ∧ ds.length = 2 ∧
    ys.all Char.isDigit = true ∧ ms.all Char.isDigit = true ∧
    ds.all Char.isDigit = true ∧
    fs ≠ [] ∧ fs.all isFacChar = true ∧
    d = ⟨ys ++ '-' :: ms ++ '-' :: ds⟩ ∧ f = ⟨fs⟩

/-- No `PAIR_RE` match begins at the head of `cs`. -/
def NoMatchAt (cs : List Char) : Prop :=
  ∀ sub rest d f, cs = sub ++ rest → ¬ PatMatch sub d f

/-- `re.finditer` semantics for `PAIR_RE`: scan left to right, at each
position emit the match starting there (if any) and resume after it,
else move one character forward. -/
inductive ScanSpec : List Char → List (String × String) → Prop
  | nil : ScanSpec [] []
  | skip (c : Char) (cs : List Char) (l : List (String × String)) :
      NoMatchAt (c :: cs) → ScanSpec cs l → ScanSpec (c :: cs) l
  | found (cs sub rest : List Char) (d f : String) (l : List (String × String)) :
      cs = sub ++ rest → PatMatch sub d f → ScanSpec rest l →
      ScanSpec cs ((d, f) :: l)


/-- The total parse map that `mergeParse` equals on records whose date
parses. -/
def gRec (it : RawRecord) : String × Option String :=
  (month_key_iso ((parseDateDMY (it.data.getD "")).getD ⟨0, 0, 0⟩), it.valor)

/-- The series-level stage of `to_pairs`: its action on an
already-converted pair series (deduplicate by date, later pair wins,
then sort ascending by date string). -/
def pairsNormalize (pairs : List (String × ℚ)) : List (String × ℚ) :=
  sortByKey strLtB Prod.fst (dictFold (fun p => some p) pairs [])

/-! ## Lemmas -/

theorem charToNat_inj {a b : Char} (h : a.toNat = b.toNat) : a = b :=
  Char.ext (UInt32.ext h)

theorem listLtB_asymm : ∀ a b : List Char,
    listLtB a b = true → listLtB b a = false := by
  intro a
  induction a with
  | nil =>
    intro b h
    cases b with
    | nil => simp [listLtB] at h
    | cons d ds => simp [listLtB]
  | cons c cs ih =>
    intro b h
    cases b with
    | nil => simp [listLtB] at h
    | cons d ds =>
      simp only [listLtB] at h ⊢
      by_cases h1 : c.toNat < d.toNat
      · simp only [if_pos h1] at h
        have h2 : ¬ d.toNat < c.toNat := Nat.lt_asymm h1
        simp [h2, h1]
      · by_cases h2 : d.toNat < c.toNat
        · simp [h1, h2] at h
        · simp only [if_neg h1, if_neg h2] at h
          simp [h1, h2, ih ds h]

theorem listLtB_trans : ∀ a b c : List Char,
    listLtB a b = true → listLtB b c = true → listLtB a c = true := by
  intro a
  induction a with
  | nil =>
    intro b c h1 h2
    cases b with
    | nil => simp [listLtB] at h1
    | cons bb bs =>
      cases c with
      | nil => simp [listLtB] at h2
      | cons cc csx => simp [listLtB]
  | cons aa asx ih =>
    intro b c h1 h2
    cases b with
    | nil => simp [listLtB] at h1
    | cons bb bs =>
      cases c with
      | nil => simp [listLtB] at h2
      | cons cc csx =>
        simp only [listLtB] at h1 h2 ⊢
        rcases Nat.lt_trichotomy aa.toNat bb.toNat with hab | hab | hab
        · rcases Nat.lt_trichotomy bb.toNat cc.toNat with hbc | hbc | hbc
          · rw [if_pos (by omega)]
          · rw [if_pos (by omega)]
          · rw [if_neg (by omega), if_pos (by omega)] at h2
            exact absurd h2 (by simp)
        · rw [if_neg (by omega), if_neg (by omega)] at h1
          rcases Nat.lt_trichotomy bb.toNat cc.toNat with hbc | hbc | hbc
          · rw [if_pos (by omega)]
          · rw [if_neg (by omega), if_neg (by omega)] at h2
            rw [if_neg (by omega), if_neg (by omega)]
            exact ih bs csx h1 h2
          · rw [if_neg (by omega), if_pos (by omega)] at h2
            exact absurd h2 (by simp)
        · rw [if_neg (by omega), if_pos (by omega)] at h1
          exact absurd h1 (by simp)

theorem listLtB_conn : ∀ a b : List Char,
    listLtB a b = false → listLtB b a = false → a = b := by
  intro a
  induction a with
  | nil =>
    intro b h1 _
    cases b with
    | nil => rfl
    | cons d ds => simp [listLtB] at h1
  | cons c cs ih =>
    intro b h1 h2
    cases b with
    | nil => simp [listLtB] at h2
    | cons d ds =>
      simp only [listLtB] at h1 h2
      by_cases hcd : c.toNat < d.toNat
      · simp [hcd] at h1
      · by_cases hdc : d.toNat < c.toNat
        · simp [hdc] at h2
        · have hc : c = d := charToNat_inj (by omega)
          simp only [if_neg hcd, if_neg hdc] at h1
          simp only [if_neg (by omega : ¬ d.toNat < c.toNat),
            if_neg (by omega : ¬ c.toNat < d.toNat)] at h2
          rw [hc, ih ds h1 h2]

theorem listLtB_irrefl (a : List Char) : listLtB a a = false := by
  induction a with
  | nil => simp [listLtB]
  | cons c cs ih => simp [listLtB, ih]

theorem strLtB_asymm {a b : String} (h : strLtB a b = true) : strLtB b a = false :=
  listLtB_asymm _ _ h

theorem strLtB_trans {a b c : String} (h1 : strLtB a b = true)
    (h2 : strLtB b c = true) : strLtB a c = true :=
  listLtB_trans _ _ _ h1 h2

theorem strLtB_conn {a b : String} (h1 : strLtB a b = false)
    (h2 : strLtB b a = false) : a = b := by
  cases a; cases b
  exact congrArg String.mk (listLtB_conn _ _ h1 h2)

theorem strLtB_irrefl (a : String) : strLtB a a = false := listLtB_irrefl _

section SortLemmas

variable {α K : Type} (lt : K → K → Bool) (key : α → K)

theorem insertSorted_perm (x : α) : ∀ l : List α,
    (insertSorted lt key x l).Perm (x :: l)
  | [] => List.Perm.refl _
  | y :: ys => by
    simp only [insertSorted]
    split
    · exact List.Perm.refl _
    · exact ((insertSorted_perm x ys).cons y).trans (List.Perm.swap x y ys)

theorem sortByKey_perm (l : List α) : (sortByKey lt key l).Perm l := by
  suffices h : ∀ acc : List α,
      (l.foldl (fun acc x => insertSorted lt key x acc) acc).Perm (l.reverse ++ acc) by
    simp only [sortByKey]
    have h2 : (l.foldl (fun acc x => insertSorted lt key x acc) []).Perm l.reverse := by
      simpa using h []
    exact h2.trans l.reverse_perm
  induction l with
  | nil => intro acc; simp
  | cons x xs ih =>
    intro acc
    simp only [List.foldl_cons, List.reverse_cons, List.append_assoc,
      List.singleton_append]
    exact (ih _).trans (List.Perm.append_left xs.reverse (insertSorted_perm lt key x acc))

theorem insertSorted_pairwise
    (hasym : ∀ a b, lt a b = true → lt b a = false)
    (htr : ∀ a b c, lt a b = true → lt b c = true → lt a c = true) (x : α)
    (l : List α) (hp : List.Pairwise (fun a b => lt (key b) (key a) = false) l) :
    List.Pairwise (fun a b => lt (key b) (key a) = false) (insertSorted lt key x l) := by
  induction l with
  | nil => simp [insertSorted]
  | cons y ys ih =>
    rw [List.pairwise_cons] at hp
    obtain ⟨hy, hys⟩ := hp
    simp only [insertSorted]
    by_cases hlt : lt (key x) (key y) = true
    · rw [if_pos hlt]
      refine List.Pairwise.cons ?_ (List.pairwise_cons.mpr ⟨hy, hys⟩)
      intro z hz
      rcases List.mem_cons.mp hz with rfl | hz'
      · exact hasym _ _ hlt
      · rcases hq : lt (key z) (key x) with _ | _
        · rfl
        · exact absurd (htr _ _ _ hq hlt) (by simp [hy z hz'])
    · rw [if_neg hlt]
      refine List.Pairwise.cons ?_ (ih hys)
      intro z hz
      have hz' := (insertSorted_perm lt key x ys).mem_iff.mp hz
      rcases List.mem_cons.mp hz' with rfl | hz''
      · simpa using hlt
      · exact hy z hz''

theorem sortByKey_pairwise
    (hasym : ∀ a b, lt a b = true → lt b a = false)
    (htr : ∀ a b c, lt a b = true → lt b c = true → lt a c = true) (l : List α) :
    List.Pairwise (fun a b => lt (key b) (key a) = false) (sortByKey lt key l) := by
  suffices h : ∀ acc : List α,
      List.Pairwise (fun a b => lt (key b) (key a) = false) acc →
      List.Pairwise (fun a b => lt (key b) (key a) = false)
        (l.foldl (fun acc x => insertSorted lt key x acc) acc) by
    exact h [] List.Pairwise.nil
  induction l with
  | nil => intro acc h; simpa using h
  | cons x xs ih =>
    intro acc h
    exact ih _ (insertSorted_pairwise lt key hasym htr x acc h)

theorem sortByKey_pairwise_strict
    (hasym : ∀ a b, lt a b = true → lt b a = false)
    (htr : ∀ a b c, lt a b = true → lt b c = true → lt a c = true)
    (hconn : ∀ a b : K, lt a b = false → lt b a = false → a = b)
    (l : List α) (hnd : (l.map key).Nodup) :
    List.Pairwise (fun a b => lt (key a) (key b) = true) (sortByKey lt key l) := by
  have h1 := sortByKey_pairwise lt key hasym htr l
  have h2 : ((sortByKey lt key l).map key).Nodup :=
    (((sortByKey_perm lt key l).map key).nodup_iff).mpr hnd
  have h3 : List.Pairwise (fun a b => key a ≠ key b) (sortByKey lt key l) :=
    List.pairwise_map.mp h2
  refine (h1.and h3).imp ?_
  rintro a b ⟨hf, hne⟩
  rcases h : lt (key a) (key b) with _ | _
  · exact absurd (hconn _ _ h hf) hne
  · rfl

theorem insertSorted_append (x : α) : ∀ l : List α,
    (∀ y ∈ l, lt (key x) (key y) = false) →
    insertSorted lt key x l = l ++ [x]
  | [], _ => rfl
  | y :: ys, h => by
    simp only [insertSorted, h y (by simp)]
    rw [insertSorted_append x ys (fun z hz => h z (by simp [hz]))]
    simp

theorem sortByKey_sorted_id
    (l : List α)
    (hl : List.Pairwise (fun a b => lt (key b) (key a) = false) l) :
    sortByKey lt key l = l := by
  suffices h : ∀ (l acc : List α),
      List.Pairwise (fun a b => lt (key b) (key a) = false) (acc ++ l) →
      l.foldl (fun acc x => insertSorted lt key x acc) acc = acc ++ l by
    simpa [sortByKey] using h l [] (by simpa using hl)
  intro l
  induction l with
  | nil => intro acc _; simp
  | cons x xs ih =>
    intro acc h
    simp only [List.foldl_cons]
    have hx : ∀ y ∈ acc, lt (key x) (key y) = false := by
      intro y hy
      exact (List.pairwise_append.mp h).2.2 y hy x (by simp)
    rw [insertSorted_append lt key x acc hx]
    rw [ih (acc ++ [x]) (by simpa using h)]
    simp

/-- Membership in a sort. -/
theorem mem_sortByKey {x : α} {l : List α} :
    x ∈ sortByKey lt key l ↔ x ∈ l :=
  (sortByKey_perm lt key l).mem_iff

end SortLemmas

/-! ### Dict lemmas -/

section DictLemmas

variable {α K V : Type} [DecidableEq K]

theorem lookupA_updAssoc (m : List (K × V)) (k : K) (v : V) (k' : K) :
    lookupA (updAssoc m k v) k' = if k = k' then some v else lookupA m k' := by
  induction m with
  | nil =>
    by_cases h : k = k' <;> simp [updAssoc, lookupA, h]
  | cons p rest ih =>
    obtain ⟨k0, v0⟩ := p
    by_cases h0 : k0 = k
    · subst h0
      by_cases h1 : k0 = k' <;> simp [updAssoc, lookupA, h1]
    · by_cases h1 : k0 = k'
      · subst h1
        have h2 : ¬ k = k0 := fun h => h0 h.symm
        simp [updAssoc, lookupA, h0, h2]
      · simp [updAssoc, lookupA, h0, h1, ih]

theorem keysOf_updAssoc (m : List (K × V)) (k : K) (v : V) :
    keysOf (updAssoc m k v) =
      if k ∈ keysOf m then keysOf m else keysOf m ++ [k] := by
  induction m with
  | nil => simp [updAssoc, keysOf]
  | cons p rest ih =>
    obtain ⟨k0, v0⟩ := p
    by_cases h0 : k0 = k
    · subst h0
      simp [updAssoc, keysOf]
    · have h1 : ¬ k = k0 := fun h => h0 h.symm
      simp only [updAssoc, if_neg h0, keysOf, List.map_cons] at ih ⊢
      by_cases h2 : k ∈ List.map Prod.fst rest <;>
        simp [h2, ih, List.mem_cons, h1]

theorem nodup_keysOf_updAssoc (m : List (K × V)) (k : K) (v : V)
    (h : (keysOf m).Nodup) : (keysOf (updAssoc m k v)).Nodup := by
  rw [keysOf_updAssoc]
  by_cases h2 : k ∈ keysOf m
  · simpa [h2] using h
  · simp only [h2, if_false, ite_false, List.nodup_append]
    refine ⟨h, List.nodup_singleton _, ?_⟩
    intro a ha hb
    rw [List.mem_singleton] at hb
    subst hb
    exact h2 ha

theorem updAssoc_not_mem (m : List (K × V)) (k : K) (v : V)
    (h : ¬ k ∈ keysOf m) : updAssoc m k v = m ++ [(k, v)] := by
  induction m with
  | nil => rfl
  | cons p rest ih =>
    obtain ⟨k0, v0⟩ := p
    simp only [keysOf, List.map_cons, List.mem_cons] at h
    push_neg at h
    have hne : ¬ k0 = k := fun hh => h.1 hh.symm
    simp only [updAssoc, if_neg hne]
    rw [ih (by simpa [keysOf] using h.2)]
    simp

theorem lookupA_eq_none_iff (m : List (K × V)) (k : K) :
    lookupA m k = none ↔ ¬ k ∈ keysOf m := by
  induction m with
  | nil => simp [lookupA, keysOf]
  | cons p rest ih =>
    obtain ⟨k0, v0⟩ := p
    simp only [lookupA, keysOf, List.map_cons, List.mem_cons]
    by_cases h0 : k0 = k
    · simp [h0]
    · have h1 : ¬ k = k0 := fun h => h0 h.symm
      simpa [h0, h1, keysOf] using ih

theorem lookupA_dictFold (f : α → Option (K × V)) :
    ∀ (l : List α) (m : List (K × V)) (k : K),
    lookupA (dictFold f l m) k = Option.or (lastVal f l k) (lookupA m k)
  | [], m, k => by simp [dictFold, lastVal]
  | a :: t, m, k => by
    simp only [dictFold, List.foldl_cons, lastVal]
    have step : lookupA (match f a with
        | some (k0, v0) => updAssoc m k0 v0
        | none => m) k =
        Option.or (match f a with
          | some (k0, v0) => if k0 = k then some v0 else none
          | none => none) (lookupA m k) := by
      cases hf : f a with
      | none => simp
      | some p =>
        obtain ⟨k0, v0⟩ := p
        simp only
        rw [lookupA_updAssoc]
        by_cases h : k0 = k <;> simp [h]
    have ih := lookupA_dictFold f t (match f a with
      | some (k0, v0) => updAssoc m k0 v0
      | none => m) k
    rw [show (dictFold f t (match f a with
        | some (k0, v0) => updAssoc m k0 v0
        | none => m)) = (List.foldl (fun acc a => match f a with
        | some (k, v) => updAssoc acc k v
        | none => acc) (match f a with
        | some (k0, v0) => updAssoc m k0 v0
        | none => m) t) from rfl] at ih
    rw [ih, step, Option.or_assoc]

theorem lastVal_eq_some (f : α → Option (K × V)) :
    ∀ (l : List α) (k : K) (v : V),
    lastVal f l k = some v → ∃ a ∈ l, f a = some (k, v)
  | [], k, v => by simp [lastVal]
  | a :: t, k, v => by
    simp only [lastVal]
    intro h
    rcases ho : lastVal f t k with _ | w
    · rw [ho] at h
      simp only [Option.or] at h
      refine ⟨a, by simp, ?_⟩
      cases hf : f a with
      | none => rw [hf] at h; simp at h
      | some p =>
        obtain ⟨k0, v0⟩ := p
        rw [hf] at h
        by_cases hk : k0 = k
        · simp only [hk, if_pos rfl] at h
          cases h
          rw [hk]
        · simp [hk] at h
    · rw [ho] at h
      simp only [Option.or] at h
      cases h
      obtain ⟨b, hb, hfb⟩ := lastVal_eq_some f t k v ho
      exact ⟨b, by simp [hb], hfb⟩

theorem lastVal_isSome_iff (f : α → Option (K × V)) :
    ∀ (l : List α) (k : K),
    (lastVal f l k).isSome ↔ ∃ a ∈ l, ∃ v, f a = some (k, v)
  | [], k => by simp [lastVal]
  | a :: t, k => by
    simp only [lastVal, List.mem_cons]
    rcases ho : lastVal f t k with _ | w
    · simp only [Option.or]
      constructor
      · intro h
        cases hf : f a with
        | none => rw [hf] at h; simp at h
        | some p =>
          obtain ⟨k0, v0⟩ := p
          rw [hf] at h
          by_cases hk : k0 = k
          · exact ⟨a, Or.inl rfl, v0, by rw [hf, hk]⟩
          · simp [hk] at h
      · rintro ⟨b, hb | hb, v, hfb⟩
        · subst hb
          rw [hfb]
          simp
        · have : (lastVal f t k).isSome := (lastVal_isSome_iff f t k).mpr ⟨b, hb, v, hfb⟩
          rw [ho] at this
          simp at this
    · simp only [Option.or, Option.isSome_some, true_iff]
      have : (lastVal f t k).isSome := by rw [ho]; rfl
      obtain ⟨b, hb, v, hfb⟩ := (lastVal_isSome_iff f t k).mp this
      exact ⟨b, Or.inr hb, v, hfb⟩

theorem nodup_keysOf_dictFold (f : α → Option (K × V)) :
    ∀ (l : List α) (m : List (K × V)), (keysOf m).Nodup →
    (keysOf (dictFold f l m)).Nodup
  | [], m, h => h
  | a :: t, m, h => by
    simp only [dictFold, List.foldl_cons]
    cases hf : f a with
    | none =>
      exact nodup_keysOf_dictFold f t m h
    | some p =>
      obtain ⟨k0, v0⟩ := p
      exact nodup_keysOf_dictFold f t (updAssoc m k0 v0)
        (nodup_keysOf_updAssoc m k0 v0 h)

theorem mem_keysOf_iff_lookup (m : List (K × V)) (k : K) :
    k ∈ keysOf m ↔ ¬ lookupA m k = none := by
  rw [lookupA_eq_none_iff]
  tauto

theorem mem_keysOf_dictFold (f : α → Option (K × V)) (l : List α)
    (m : List (K × V)) (k : K) :
    k ∈ keysOf (dictFold f l m) ↔
      k ∈ keysOf m ∨ ∃ a ∈ l, ∃ v, f a = some (k, v) := by
  rw [mem_keysOf_iff_lookup, lookupA_dictFold]
  have h1 : Option.or (lastVal f l k) (lookupA m k) = none ↔
      lastVal f l k = none ∧ lookupA m k = none := by
    cases lastVal f l k <;> simp [Option.or]
  constructor
  · intro h
    by_cases hv : lastVal f l k = none
    · left
      rw [mem_keysOf_iff_lookup]
      intro hm
      exact h (h1.mpr ⟨hv, hm⟩)
    · right
      have h2 : (lastVal f l k).isSome := Option.ne_none_iff_isSome.mp hv
      exact (lastVal_isSome_iff f l k).mp h2
  · intro h hC
    rw [h1] at hC
    rcases h with h | h
    · rw [mem_keysOf_iff_lookup] at h
      exact h hC.2
    · have h2 : (lastVal f l k).isSome := (lastVal_isSome_iff f l k).mpr h
      rw [hC.1] at h2
      simp at h2

theorem mem_assoc_iff_lookup (m : List (K × V)) (hnd : (keysOf m).Nodup)
    (k : K) (v : V) : (k, v) ∈ m ↔ lookupA m k = some v := by
  induction m with
  | nil => simp [lookupA]
  | cons p rest ih =>
    obtain ⟨k0, v0⟩ := p
    simp only [keysOf, List.map_cons, List.nodup_cons] at hnd
    simp only [List.mem_cons, lookupA]
    by_cases h0 : k0 = k
    · subst h0
      simp only [if_pos rfl]
      constructor
      · rintro (h | h)
        · cases h; rfl
        · exact absurd (List.mem_map_of_mem Prod.fst h) hnd.1
      · intro h
        cases h
        exact Or.inl rfl
    · simp only [if_neg h0]
      rw [← ih hnd.2]
      constructor
      · rintro (h | h)
        · cases h; exact absurd rfl h0
        · exact h
      · exact Or.inr

theorem mem_updAssoc_origin (m : List (K × V)) (k0 : K) (v0 : V) (k : K) (v : V)
    (h : (k, v) ∈ updAssoc m k0 v0) : (k, v) ∈ m ∨ (k = k0 ∧ v = v0) := by
  induction m with
  | nil =>
    simp only [updAssoc, List.mem_singleton] at h
    cases h
    exact Or.inr ⟨rfl, rfl⟩
  | cons p rest ih =>
    obtain ⟨k1, v1⟩ := p
    simp only [updAssoc] at h
    by_cases h1 : k1 = k0
    · rw [if_pos h1] at h
      rcases List.mem_cons.mp h with h | h
      · cases h; exact Or.inr ⟨h1, rfl⟩
      · exact Or.inl (List.mem_cons_of_mem _ h)
    · rw [if_neg h1] at h
      rcases List.mem_cons.mp h with h | h
      · cases h; exact Or.inl (by simp)
      · rcases ih h with h | h
        · exact Or.inl (List.mem_cons_of_mem _ h)
        · exact Or.inr h

theorem mem_dictFold_origin (f : α → Option (K × V)) :
    ∀ (l : List α) (m : List (K × V)) (k : K) (v : V),
    (k, v) ∈ dictFold f l m → (k, v) ∈ m ∨ ∃ a ∈ l, f a = some (k, v)
  | [], m, k, v, h => Or.inl h
  | a :: t, m, k, v, h => by
    simp only [dictFold, List.foldl_cons] at h
    cases hf : f a with
    | none =>
      rw [hf] at h
      rcases mem_dictFold_origin f t m k v h with h2 | ⟨b, hb, hfb⟩
      · exact Or.inl h2
      · exact Or.inr ⟨b, by simp [hb], hfb⟩
    | some p =>
      obtain ⟨k0, v0⟩ := p
      rw [hf] at h
      rcases mem_dictFold_origin f t (updAssoc m k0 v0) k v h with h2 | ⟨b, hb, hfb⟩
      · rcases mem_updAssoc_origin m k0 v0 k v h2 with h3 | ⟨rfl, rfl⟩
        · exact Or.inl h3
        · exact Or.inr ⟨a, by simp, hf⟩
      · exact Or.inr ⟨b, by simp [hb], hfb⟩

theorem dictFold_some_eq (l m : List (K × V))
    (hnd : (keysOf (m ++ l)).Nodup) :
    dictFold (fun p => some p) l m = m ++ l := by
  induction l generalizing m with
  | nil => simp [dictFold]
  | cons p t ih =>
    obtain ⟨k0, v0⟩ := p
    have hk0 : ¬ k0 ∈ keysOf m := by
      simp only [keysOf, List.map_append, List.nodup_append] at hnd
      intro hmem
      exact hnd.2.2 hmem (by simp)
    simp only [dictFold, List.foldl_cons]
    rw [show (List.foldl (fun acc a => match (fun p => some p) a with
        | some (k, v) => updAssoc acc k v
        | none => acc) (updAssoc m k0 v0) t) =
      dictFold (fun p => some p) t (updAssoc m k0 v0) from rfl]
    rw [updAssoc_not_mem m k0 v0 hk0]
    rw [ih (m ++ [(k0, v0)]) (by simpa [keysOf] using hnd)]
    simp

end DictLemmas

/-! ### Digits, padding, splitting, date parsing -/

theorem isDigit_toNat {c : Char} (h : c.isDigit = true) :
    48 ≤ c.toNat ∧ c.toNat ≤ 57 := by
  simp only [Char.isDigit, Bool.and_eq_true, decide_eq_true_eq] at h
  obtain ⟨h1, h2⟩ := h
  rw [GE.ge, UInt32.le_def, BitVec.le_def] at h1
  rw [UInt32.le_def, BitVec.le_def] at h2
  exact ⟨h1, h2⟩

theorem digitCh_spec (n : ℕ) :
    (digitCh n).isDigit = true ∧ digitVal (digitCh n) = n % 10 ∧
      (digitCh n).toNat = 48 + n % 10 := by
  have h : n % 10 < 10 := Nat.mod_lt _ (by norm_num)
  unfold digitCh digitVal
  set k := n % 10 with hk
  interval_cases k <;> exact ⟨by decide, by decide, by decide⟩

theorem digit_ne_dash {c : Char} (h : c.isDigit = true) : ¬ c = '-' := by
  intro hc
  subst hc
  simp [Char.isDigit] at h

theorem digit_ne_slash {c : Char} (h : c.isDigit = true) : ¬ c = '/' := by
  intro hc
  subst hc
  simp [Char.isDigit] at h

theorem digitVal_le {c : Char} (h : c.isDigit = true) : digitVal c ≤ 9 := by
  have := isDigit_toNat h
  unfold digitVal
  omega

theorem pad2L_all_digit (n : ℕ) : (pad2L n).all Char.isDigit = true := by
  simp [pad2L, List.all_cons, (digitCh_spec _).1]

theorem pad4L_all_digit (n : ℕ) : (pad4L n).all Char.isDigit = true := by
  simp [pad4L, List.all_cons, (digitCh_spec _).1]

theorem digitsToNat_pad2L {n : ℕ} (h : n ≤ 99) : digitsToNat (pad2L n) = n := by
  have h1 := (digitCh_spec (n / 10)).2.1
  have h2 := (digitCh_spec n).2.1
  simp only [pad2L, digitsToNat, List.foldl_cons, List.foldl_nil, h1, h2]
  omega

theorem digitsToNat_pad4L {n : ℕ} (h : n ≤ 9999) : digitsToNat (pad4L n) = n := by
  have h1 := (digitCh_spec (n / 1000)).2.1
  have h2 := (digitCh_spec (n / 100)).2.1
  have h3 := (digitCh_spec (n / 10)).2.1
  have h4 := (digitCh_spec n).2.1
  simp only [pad4L, digitsToNat, List.foldl_cons, List.foldl_nil, h1, h2, h3, h4]
  omega

theorem digitsToNat_lt : ∀ (cs : List Char), cs.all Char.isDigit = true →
    digitsToNat cs < 10 ^ cs.length := by
  suffices h : ∀ (cs : List Char) (acc : ℕ), cs.all Char.isDigit = true →
      cs.foldl (fun a c => a * 10 + digitVal c) acc < (acc + 1) * 10 ^ cs.length by
    intro cs hcs
    simpa [digitsToNat] using h cs 0 hcs
  intro cs
  induction cs with
  | nil => intro acc _; simp
  | cons c t ih =>
    intro acc hall
    rw [List.all_cons, Bool.and_eq_true] at hall
    have hv : digitVal c ≤ 9 := digitVal_le hall.1
    have h2 := ih (acc * 10 + digitVal c) hall.2
    calc (c :: t).foldl (fun a c => a * 10 + digitVal c) acc
        = t.foldl (fun a c => a * 10 + digitVal c) (acc * 10 + digitVal c) := rfl
      _ < (acc * 10 + digitVal c + 1) * 10 ^ t.length := h2
      _ ≤ ((acc + 1) * 10) * 10 ^ t.length := Nat.mul_le_mul_right _ (by omega)
      _ = (acc + 1) * 10 ^ (c :: t).length := by
          rw [List.length_cons]
          ring

theorem splitOnChar_ne_nil (sep : Char) : ∀ cs, splitOnChar sep cs ≠ []
  | [] => by simp [splitOnChar]
  | c :: cs => by
    simp only [splitOnChar]
    split
    · simp
    · rcases h : splitOnChar sep cs with _ | ⟨p, ps⟩ <;> simp

theorem splitOnChar_no_sep (sep : Char) : ∀ cs, (∀ c ∈ cs, ¬ c = sep) →
    splitOnChar sep cs = [cs]
  | [], _ => rfl
  | c :: cs, h => by
    simp only [splitOnChar, if_neg (h c (by simp))]
    rw [splitOnChar_no_sep sep cs (fun x hx => h x (by simp [hx]))]

theorem splitOnChar_append_sep (sep : Char) :
    ∀ l1 l2, (∀ c ∈ l1, ¬ c = sep) →
    splitOnChar sep (l1 ++ sep :: l2) = l1 :: splitOnChar sep l2
  | [], l2, _ => by simp [splitOnChar]
  | c :: l1, l2, h => by
    have hrec := splitOnChar_append_sep sep l1 l2 (fun x hx => h x (by simp [hx]))
    simp only [List.cons_append, splitOnChar, if_neg (h c (by simp)),
      List.append_eq, hrec]

theorem no_sep_of_digits {sep : Char} (hsep : sep.isDigit = false) :
    ∀ {cs : List Char}, cs.all Char.isDigit = true → ∀ c ∈ cs, ¬ c = sep := by
  intro cs hall c hc hceq
  subst hceq
  rw [List.all_eq_true] at hall
  rw [hall c hc] at hsep
  cases hsep

theorem one_le_daysInMonth (y m : ℕ) : 1 ≤ daysInMonth y m := by
  unfold daysInMonth
  split
  · split <;> omega
  · split <;> omega

theorem pad4L_length (n : ℕ) : (pad4L n).length = 4 := rfl

theorem pad2L_length (n : ℕ) : (pad2L n).length = 2 := rfl

/-- Parsing the merger's rebuilt record date `01/MM/YYYY`. -/
theorem parseDateDMY_build (y m : ℕ) (hy1 : 1 ≤ y) (hy2 : y ≤ 9999)
    (hm1 : 1 ≤ m) (hm2 : m ≤ 12) :
    parseDateDMY ⟨'0' :: '1' :: '/' :: (pad2L m ++ '/' :: pad4L y)⟩ =
      some ⟨y, m, 1⟩ := by
  have hsplit1 : splitOnChar '/' ('0' :: '1' :: '/' :: (pad2L m ++ '/' :: pad4L y)) =
      ['0', '1'] :: splitOnChar '/' (pad2L m ++ '/' :: pad4L y) := by
    have h0 := splitOnChar_append_sep '/' ['0', '1'] (pad2L m ++ '/' :: pad4L y)
      (by intro c hc; fin_cases hc <;> decide)
    simpa using h0
  have hsplit2 : splitOnChar '/' (pad2L m ++ '/' :: pad4L y) =
      pad2L m :: splitOnChar '/' (pad4L y) :=
    splitOnChar_append_sep '/' _ _ (no_sep_of_digits (by decide) (pad2L_all_digit m))
  have hsplit3 : splitOnChar '/' (pad4L y) = [pad4L y] :=
    splitOnChar_no_sep '/' _ (no_sep_of_digits (by decide) (pad4L_all_digit y))
  have hm99 : m ≤ 99 := by omega
  have hf1 : fieldNum 1 31 ['0', '1'] = some 1 := by decide
  have hf2 : fieldNum 1 12 (pad2L m) = some m := by
    unfold fieldNum
    rw [if_pos]
    · rw [digitsToNat_pad2L hm99]
    · refine ⟨by simp [pad2L], by simp [pad2L_length], pad2L_all_digit m, ?_, ?_⟩ <;>
        rw [digitsToNat_pad2L hm99] <;> omega
  have hdata : (⟨'0' :: '1' :: '/' :: (pad2L m ++ '/' :: pad4L y)⟩ : String).data =
      '0' :: '1' :: '/' :: (pad2L m ++ '/' :: pad4L y) := rfl
  simp only [parseDateDMY, hdata, hsplit1, hsplit2, hsplit3, hf1, hf2]
  rw [if_pos]
  · rw [digitsToNat_pad4L hy2]
  · refine ⟨pad4L_length y, pad4L_all_digit y, ?_, ?_⟩ <;>
      rw [digitsToNat_pad4L hy2]
    · omega
    · exact one_le_daysInMonth _ _

/-- What `fieldNum` acceptance means. -/
theorem fieldNum_eq_some {lo hi : ℕ} {cs : List Char} {v : ℕ}
    (h : fieldNum lo hi cs = some v) :
    cs ≠ [] ∧ cs.length ≤ 2 ∧ cs.all Char.isDigit = true ∧ lo ≤ v ∧ v ≤ hi ∧
      v = digitsToNat cs := by
  unfold fieldNum at h
  split at h
  · cases h
    rename_i hc
    exact ⟨hc.1, hc.2.1, hc.2.2.1, hc.2.2.2.1, hc.2.2.2.2, rfl⟩
  · cases h

/-- Bounds on any date `strptime` accepts. -/
theorem parseDateDMY_bounds {s : String} {d : Date}
    (h : parseDateDMY s = some d) :
    1 ≤ d.day ∧ d.day ≤ 31 ∧ 1 ≤ d.month ∧ d.month ≤ 12 ∧
      1 ≤ d.year ∧ d.year ≤ 9999 ∧ d.day ≤ daysInMonth d.year d.month := by
  unfold parseDateDMY at h
  rcases hs : splitOnChar '/' s.data with _ | ⟨ds, rest⟩ <;> rw [hs] at h
  · cases h
  rcases rest with _ | ⟨ms, rest2⟩
  · cases h
  rcases rest2 with _ | ⟨ys, rest3⟩
  · cases h
  rcases rest3 with _ | _
  · replace h : (match fieldNum 1 31 ds, fieldNum 1 12 ms with
      | some dd, some mm =>
        if ys.length = 4 ∧ ys.all Char.isDigit = true ∧ 1 ≤ digitsToNat ys ∧
            dd ≤ daysInMonth (digitsToNat ys) mm then
          some (⟨digitsToNat ys, mm, dd⟩ : Date)
        else none
      | _, _ => none) = some d := h
    rcases hd : fieldNum 1 31 ds with _ | dv <;> rw [hd] at h
    · cases h
    rcases hm : fieldNum 1 12 ms with _ | mv <;> rw [hm] at h
    · cases h
    have hdc := fieldNum_eq_some hd
    have hmc := fieldNum_eq_some hm
    replace h : (if ys.length = 4 ∧ ys.all Char.isDigit = true ∧
        1 ≤ digitsToNat ys ∧ dv ≤ daysInMonth (digitsToNat ys) mv then
        some (⟨digitsToNat ys, mv, dv⟩ : Date) else none) = some d := h
    by_cases hcond3 : ys.length = 4 ∧ ys.all Char.isDigit = true ∧
        1 ≤ digitsToNat ys ∧ dv ≤ daysInMonth (digitsToNat ys) mv
    · rw [if_pos hcond3] at h
      injection h with h2
      subst h2
      dsimp only
      have hylt : digitsToNat ys < 10 ^ ys.length := digitsToNat_lt ys hcond3.2.1
      rw [hcond3.1] at hylt
      norm_num at hylt
      refine ⟨by omega, by omega, by omega, by omega, hcond3.2.2.1, by omega, ?_⟩
      exact hcond3.2.2.2
    · rw [if_neg hcond3] at h
      cases h
  · cases h

/-- Splitting a `month_key_iso` back into its year and month digits. -/
theorem splitOnChar_month_key_iso (d : Date) :
    splitOnChar '-' (month_key_iso d).data = [pad4L d.year, pad2L d.month] := by
  have h1 : splitOnChar '-' (pad4L d.year ++ '-' :: pad2L d.month) =
      pad4L d.year :: splitOnChar '-' (pad2L d.month) :=
    splitOnChar_append_sep '-' _ _ (no_sep_of_digits (by decide) (pad4L_all_digit _))
  have h2 : splitOnChar '-' (pad2L d.month) = [pad2L d.month] :=
    splitOnChar_no_sep '-' _ (no_sep_of_digits (by decide) (pad2L_all_digit _))
  show splitOnChar '-' (pad4L d.year ++ '-' :: pad2L d.month) = _
  rw [h1, h2]

/-- Extending strictly ordered equal-length lists preserves the order. -/
theorem listLtB_append_of_eq_length : ∀ (l1 l2 t1 t2 : List Char),
    l1.length = l2.length → listLtB l1 l2 = true →
    listLtB (l1 ++ t1) (l2 ++ t2) = true
  | [], [], _, _, _, h2 => by simp [listLtB] at h2
  | [], _ :: _, _, _, h1, _ => by simp at h1
  | _ :: _, [], _, _, h1, _ => by simp at h1
  | a :: as, b :: bs, t1, t2, h1, h2 => by
    simp only [List.length_cons, Nat.succ.injEq] at h1
    simp only [listLtB, List.cons_append] at h2 ⊢
    rcases hab : decide (a.toNat < b.toNat) with _ | _
    · simp only [decide_eq_false_iff_not] at hab
      rw [if_neg hab] at h2 ⊢
      rcases hba : decide (b.toNat < a.toNat) with _ | _
      · simp only [decide_eq_false_iff_not] at hba
        rw [if_neg hba] at h2 ⊢
        exact listLtB_append_of_eq_length as bs t1 t2 h1 h2
      · simp only [decide_eq_true_eq] at hba
        rw [if_pos hba] at h2
        cases h2
    · simp only [decide_eq_true_eq] at hab
      rw [if_pos hab]

/-! ### Scanner lemmas -/

theorem expectLit_sound : ∀ (lit cs r : List Char),
    expectLit lit cs = some r → cs = lit ++ r
  | [], cs, r => by
    simp only [expectLit, Option.some.injEq, List.nil_append]
    intro h
    rw [h]
  | _ :: _, [], _ => by simp [expectLit]
  | l :: ls, c :: cs, r => by
    simp only [expectLit]
    split
    · rename_i hc
      intro h
      rw [hc, expectLit_sound ls cs r h, List.cons_append]
    · intro h
      cases h

theorem expectLit_complete : ∀ (lit r : List Char), expectLit lit (lit ++ r) = some r
  | [], _ => rfl
  | l :: ls, r => by simp [expectLit, expectLit_complete ls r]

theorem takeDigits_sound : ∀ (n : ℕ) (cs ds r : List Char),
    takeDigits n cs = some (ds, r) →
    cs = ds ++ r ∧ ds.length = n ∧ ds.all Char.isDigit = true
  | 0, cs, ds, r => by
    simp only [takeDigits, Option.some.injEq, Prod.mk.injEq]
    rintro ⟨h1, h2⟩
    subst h1 h2
    exact ⟨rfl, rfl, rfl⟩
  | _ + 1, [], _, _ => by intro h; cases h
  | n + 1, c :: cs, ds, r => by
    simp only [takeDigits]
    split
    · rename_i hc
      rcases hr : takeDigits n cs with _ | p
      · simp [hr]
      · obtain ⟨ds', r'⟩ := p
        obtain ⟨h1, h2, h3⟩ := takeDigits_sound n cs ds' r' hr
        intro hmap
        injection hmap with h4
        injection h4 with h5 h6
        subst h5
        subst h6
        refine ⟨by rw [h1, List.cons_append], by simp [h2], ?_⟩
        simp [List.all_cons, hc, h3]
    · intro h
      cases h

theorem takeDigits_complete : ∀ (ds r : List Char),
    ds.all Char.isDigit = true → takeDigits ds.length (ds ++ r) = some (ds, r)
  | [], r, _ => rfl
  | c :: ds, r, h => by
    rw [List.all_cons, Bool.and_eq_true] at h
    simp only [List.length_cons, List.cons_append, takeDigits, if_pos h.1,
      List.append_eq, takeDigits_complete ds r h.2]
    rfl

theorem takeWhile_append_all {p : Char → Bool} :
    ∀ (l1 l2 : List Char), l1.all p = true →
    (∀ c, l2.head? = some c → p c = false) →
    (l1 ++ l2).takeWhile p = l1 ∧ (l1 ++ l2).dropWhile p = l2
  | [], l2, _, hh => by
    rcases l2 with _ | ⟨c, t⟩
    · exact ⟨rfl, rfl⟩
    · have := hh c rfl
      simp only [List.nil_append, List.takeWhile_cons, List.dropWhile_cons, this]
      exact ⟨rfl, rfl⟩
  | c :: l1, l2, hall, hh => by
    rw [List.all_cons, Bool.and_eq_true] at hall
    obtain ⟨ih1, ih2⟩ := takeWhile_append_all l1 l2 hall.2 hh
    simp only [List.cons_append, List.takeWhile_cons, List.dropWhile_cons,
      hall.1, ih1, ih2]
    exact ⟨rfl, rfl⟩

theorem dropWhile_spaces_cons {w : List Char} (hw : w.all isSpaceB = true)
    {c : Char} (hc : isSpaceB c = false) (X : List Char) :
    (w ++ c :: X).dropWhile isSpaceB = c :: X :=
  (takeWhile_append_all w (c :: X) hw (by intro x hx; cases hx; exact hc)).2

theorem space_not_digit {c : Char} (h : isSpaceB c = true) :
    c.isDigit = false ∧ isFacChar c = false := by
  simp only [isSpaceB, Bool.or_eq_true, decide_eq_true_eq] at h
  rcases h with ((((h | h) | h) | h) | h) | h <;> subst h <;> exact ⟨rfl, rfl⟩

theorem quote_not_space {q : Char} (h : isQuoteB q = true) :
    isSpaceB q = false := by
  simp only [isQuoteB, Bool.or_eq_true, decide_eq_true_eq] at h
  rcases h with h | h <;> subst h <;> rfl

theorem fac_not_space {c : Char} (h : isFacChar c = true) :
    isSpaceB c = false := by
  rcases hs : isSpaceB c with _ | _
  · rfl
  · rw [(space_not_digit hs).2] at h
    cases h

theorem digit_isFacChar {c : Char} (h : c.isDigit = true) : isFacChar c = true := by
  simp [isFacChar, h]

theorem matchDateGroup_complete (q1 q2 : Char) (ys ms ds : List Char)
    (hq1 : isQuoteB q1 = true) (hq2 : isQuoteB q2 = true)
    (hys : ys.length = 4) (hms : ms.length = 2) (hds : ds.length = 2)
    (hysd : ys.all Char.isDigit = true) (hmsd : ms.all Char.isDigit = true)
    (hdsd : ds.all Char.isDigit = true) (X : List Char) :
    matchDateGroup (q1 :: (ys ++ '-' :: (ms ++ '-' :: (ds ++ q2 :: X)))) =
      some (ys ++ '-' :: ms ++ '-' :: ds, X) := by
  have h4 : takeDigits 4 (ys ++ '-' :: (ms ++ '-' :: (ds ++ q2 :: X))) =
      some (ys, '-' :: (ms ++ '-' :: (ds ++ q2 :: X))) := by
    rw [← hys]
    exact takeDigits_complete ys _ hysd
  have h2a : takeDigits 2 (ms ++ '-' :: (ds ++ q2 :: X)) =
      some (ms, '-' :: (ds ++ q2 :: X)) := by
    rw [← hms]
    exact takeDigits_complete ms _ hmsd
  have h2b : takeDigits 2 (ds ++ q2 :: X) = some (ds, q2 :: X) := by
    rw [← hds]
    exact takeDigits_complete ds _ hdsd
  have hlit : ∀ Y : List Char, expectLit ['-'] ('-' :: Y) = some Y :=
    fun Y => expectLit_complete ['-'] Y
  simp only [matchDateGroup, if_pos hq1, h4, Option.some_bind, hlit, h2a, h2b,
    if_pos hq2]

theorem matchDateGroup_sound (cs : List Char) (g r : List Char)
    (h : matchDateGroup cs = some (g, r)) :
    ∃ (q1 q2 : Char) (ys ms ds : List Char),
      cs = q1 :: (ys ++ '-' :: (ms ++ '-' :: (ds ++ q2 :: r))) ∧
      isQuoteB q1 = true ∧ isQuoteB q2 = true ∧
      ys.length = 4 ∧ ms.length = 2 ∧ ds.length = 2 ∧
      ys.all Char.isDigit = true ∧ ms.all Char.isDigit = true ∧
      ds.all Char.isDigit = true ∧ g = ys ++ '-' :: ms ++ '-' :: ds := by
  rcases cs with _ | ⟨q1, cs1⟩
  · cases h
  simp only [matchDateGroup] at h
  rcases hq1 : isQuoteB q1 with _ | _
  · rw [hq1] at h
    simp at h
  rw [hq1, if_pos rfl] at h
  rw [Option.bind_eq_some] at h
  obtain ⟨⟨ys, r1⟩, hys, h⟩ := h
  rw [Option.bind_eq_some] at h
  obtain ⟨r2, hr2, h⟩ := h
  rw [Option.bind_eq_some] at h
  obtain ⟨⟨ms, r3⟩, hms, h⟩ := h
  rw [Option.bind_eq_some] at h
  obtain ⟨r4, hr4, h⟩ := h
  rw [Option.bind_eq_some] at h
  obtain ⟨⟨ds, r5⟩, hds, h⟩ := h
  dsimp only at h hr2 hr4
  obtain ⟨hys1, hys2, hys3⟩ := takeDigits_sound _ _ _ _ hys
  obtain ⟨hms1, hms2, hms3⟩ := takeDigits_sound _ _ _ _ hms
  obtain ⟨hds1, hds2, hds3⟩ := takeDigits_sound _ _ _ _ hds
  have hr2' := expectLit_sound _ _ _ hr2
  have hr4' := expectLit_sound _ _ _ hr4
  rcases r5 with _ | ⟨q2, r6⟩
  · cases h
  replace h : (if isQuoteB q2 = true then
      some (ys ++ '-' :: ms ++ '-' :: ds, r6) else none) = some (g, r) := h
  rcases hq2 : isQuoteB q2 with _ | _
  · rw [hq2] at h
    simp at h
  rw [hq2, if_pos rfl] at h
  injection h with h'
  injection h' with hg hr
  subst hg
  subst hr
  refine ⟨q1, q2, ys, ms, ds, ?_, hq1, hq2, hys2, hms2, hds2, hys3, hms3,
    hds3, rfl⟩
  rw [hys1, hr2', hms1, hr4', hds1]
  simp

theorem matchAt_complete (sub rest : List Char) (d f : String)
    (h : PatMatch sub d f) : matchAt (sub ++ rest) = some (d, f, rest) := by
  obtain ⟨w1, w2, w3, w4, w5, w6, w7, w8, q1, q2, ys, ms, ds, fs, hsub, hw1,
    hw2, hw3, hw4, hw5, hw6, hw7, hw8, hq1, hq2, hys, hms, hds, hysd, hmsd,
    hdsd, hfs0, hfsf, hd, hf⟩ := h
  subst hsub hd hf
  rcases fs with _ | ⟨fc, fs'⟩
  · cases hfs0 rfl
  have hfc : isFacChar fc = true := by
    rw [List.all_cons, Bool.and_eq_true] at hfsf
    exact hfsf.1
  have hfc_ns : isSpaceB fc = false := fac_not_space hfc
  have hq1_ns : isSpaceB q1 = false := quote_not_space hq1
  have hbrace : ∀ c, ((w8 ++ '\x7d' :: rest).head? = some c) →
      isFacChar c = false := by
    intro c hc
    rcases w8 with _ | ⟨c8, t8⟩
    · simp at hc
      subst hc
      rfl
    · simp at hc
      subst hc
      rw [List.all_cons, Bool.and_eq_true] at hw8
      exact (space_not_digit hw8.1).2
  have hspan := takeWhile_append_all (fc :: fs') (w8 ++ '\x7d' :: rest) hfsf hbrace
  simp only [List.cons_append] at hspan
  have hlit_date : ∀ X : List Char,
      expectLit ['d', 'a', 't', 'e'] ('d' :: 'a' :: 't' :: 'e' :: X) = some X :=
    fun _ => rfl
  have hlit_colon : ∀ X : List Char, expectLit [':'] (':' :: X) = some X :=
    fun _ => rfl
  have hlit_comma : ∀ X : List Char, expectLit [','] (',' :: X) = some X :=
    fun _ => rfl
  have hlit_factor : ∀ X : List Char,
      expectLit ['f', 'a', 'c', 't', 'o', 'r']
        ('f' :: 'a' :: 'c' :: 't' :: 'o' :: 'r' :: X) = some X :=
    fun _ => rfl
  have hlit_brace : ∀ X : List Char, expectLit ['\x7d'] ('\x7d' :: X) = some X :=
    fun _ => rfl
  have hmdg := matchDateGroup_complete q1 q2 ys ms ds hq1 hq2 hys hms hds
    hysd hmsd hdsd
  have hfs_ne : ¬ (fc :: fs' = []) := by simp
  simp only [List.cons_append, List.nil_append, List.append_assoc, matchAt,
    eq_self_iff_true, if_true, ite_true, if_pos rfl,
    dropWhile_spaces_cons hw1 (show isSpaceB 'd' = false from rfl),
    hlit_date, Option.some_bind,
    dropWhile_spaces_cons hw2 (show isSpaceB ':' = false from rfl),
    hlit_colon,
    dropWhile_spaces_cons hw3 hq1_ns,
    hmdg,
    dropWhile_spaces_cons hw4 (show isSpaceB ',' = false from rfl),
    hlit_comma,
    dropWhile_spaces_cons hw5 (show isSpaceB 'f' = false from rfl),
    hlit_factor,
    dropWhile_spaces_cons hw6 (show isSpaceB ':' = false from rfl),
    dropWhile_spaces_cons hw7 hfc_ns,
    hspan.1, hspan.2, if_neg hfs_ne,
    dropWhile_spaces_cons hw8 (show isSpaceB '\x7d' = false from rfl),
    hlit_brace, Option.map_some']

theorem matchAt_sound (cs : List Char) (d f : String) (rest : List Char)
    (h : matchAt cs = some (d, f, rest)) :
    ∃ sub, cs = sub ++ rest ∧ PatMatch sub d f := by
  have hallsp : ∀ l : List Char, (l.takeWhile isSpaceB).all isSpaceB = true := by
    intro l
    rw [List.all_eq_true]
    intro c hc
    exact List.mem_takeWhile_imp hc
  have hsplit : ∀ l : List Char, l = l.takeWhile isSpaceB ++ l.dropWhile isSpaceB :=
    fun l => (List.takeWhile_append_dropWhile isSpaceB l).symm
  rcases cs with _ | ⟨c0, cs1⟩
  · cases h
  simp only [matchAt] at h
  by_cases hc0 : c0 = '\x7b'
  swap
  · rw [if_neg hc0] at h
    cases h
  subst hc0
  rw [if_pos rfl] at h
  rw [Option.bind_eq_some] at h
  obtain ⟨r2, hs1, h⟩ := h
  rw [Option.bind_eq_some] at h
  obtain ⟨r4, hs2, h⟩ := h
  rw [Option.bind_eq_some] at h
  obtain ⟨⟨grp, r5⟩, hs3, h⟩ := h
  dsimp only at h
  rw [Option.bind_eq_some] at h
  obtain ⟨r6, hs4, h⟩ := h
  rw [Option.bind_eq_some] at h
  obtain ⟨r8, hs5, h⟩ := h
  rw [Option.bind_eq_some] at h
  obtain ⟨r9, hs6, h⟩ := h
  by_cases hfs : (r9.dropWhile isSpaceB).takeWhile isFacChar = []
  · rw [if_pos hfs] at h
    cases h
  rw [if_neg hfs] at h
  rw [Option.map_eq_some'] at h
  obtain ⟨r12, hs7, heq⟩ := h
  injection heq with heqd heq2
  injection heq2 with heqf heqr
  obtain ⟨q1, q2, ys, ms, ds, hr4d, hq1, hq2, hys, hms, hds, hysd, hmsd,
    hdsd, hgrp⟩ := matchDateGroup_sound _ _ _ hs3
  have e1 := expectLit_sound _ _ _ hs1
  have e2 := expectLit_sound _ _ _ hs2
  have e4 := expectLit_sound _ _ _ hs4
  have e5 := expectLit_sound _ _ _ hs5
  have e6 := expectLit_sound _ _ _ hs6
  have e7 := expectLit_sound _ _ _ hs7
  refine ⟨'\x7b' :: (cs1.takeWhile isSpaceB ++ ['d', 'a', 't', 'e'] ++
    r2.takeWhile isSpaceB ++ ':' :: r4.takeWhile isSpaceB ++
    q1 :: (ys ++ '-' :: ms ++ '-' :: ds) ++ q2 :: r5.takeWhile isSpaceB ++
    ',' :: r6.takeWhile isSpaceB ++ ['f', 'a', 'c', 't', 'o', 'r'] ++
    r8.takeWhile isSpaceB ++ ':' :: r9.takeWhile isSpaceB ++
    (r9.dropWhile isSpaceB).takeWhile isFacChar ++
    ((r9.dropWhile isSpaceB).dropWhile isFacChar).takeWhile isSpaceB ++
    ['\x7d']), ?_, ?_⟩
  · subst heqr
    have hcs1 : cs1 = cs1.takeWhile isSpaceB ++ (['d', 'a', 't', 'e'] ++ r2) := by
      rw [← e1]
      exact hsplit cs1
    have hr2 : r2 = r2.takeWhile isSpaceB ++ ([':'] ++ r4) := by
      rw [← e2]
      exact hsplit r2
    have hr4 : r4 = r4.takeWhile isSpaceB ++
        (q1 :: (ys ++ '-' :: (ms ++ '-' :: (ds ++ q2 :: r5)))) := by
      rw [← hr4d]
      exact hsplit r4
    have hr5 : r5 = r5.takeWhile isSpaceB ++ ([','] ++ r6) := by
      rw [← e4]
      exact hsplit r5
    have hr6 : r6 = r6.takeWhile isSpaceB ++ (['f', 'a', 'c', 't', 'o', 'r'] ++ r8) := by
      rw [← e5]
      exact hsplit r6
    have hr8 : r8 = r8.takeWhile isSpaceB ++ ([':'] ++ r9) := by
      rw [← e6]
      exact hsplit r8
    have hr9 : r9 = r9.takeWhile isSpaceB ++
        ((r9.dropWhile isSpaceB).takeWhile isFacChar ++
          (r9.dropWhile isSpaceB).dropWhile isFacChar) := by
      rw [List.takeWhile_append_dropWhile]
      exact hsplit r9
    have hr11 : (r9.dropWhile isSpaceB).dropWhile isFacChar =
        ((r9.dropWhile isSpaceB).dropWhile isFacChar).takeWhile isSpaceB ++
          (['\x7d'] ++ r12) := by
      rw [← e7]
      exact hsplit _
    conv_lhs => rw [hcs1, hr2, hr4, hr5, hr6, hr8, hr9, hr11]
    simp [List.append_assoc]
  · subst heqd heqf hgrp
    refine ⟨cs1.takeWhile isSpaceB, r2.takeWhile isSpaceB,
      r4.takeWhile isSpaceB, r5.takeWhile isSpaceB, r6.takeWhile isSpaceB,
      r8.takeWhile isSpaceB, r9.takeWhile isSpaceB,
      ((r9.dropWhile isSpaceB).dropWhile isFacChar).takeWhile isSpaceB,
      q1, q2, ys, ms, ds, (r9.dropWhile isSpaceB).takeWhile isFacChar,
      ?_, hallsp _, hallsp _, hallsp _, hallsp _, hallsp _, hallsp _,
      hallsp _, hallsp _, hq1, hq2, hys, hms, hds, hysd, hmsd, hdsd, hfs,
      ?_, rfl, rfl⟩
    · simp [List.append_assoc]
    · rw [List.all_eq_true]
      intro c hc
      exact List.mem_takeWhile_imp hc

theorem patMatch_head {sub : List Char} {d f : String} (h : PatMatch sub d f) :
    ∃ t, sub = '\x7b' :: t := by
  obtain ⟨w1, w2, w3, w4, w5, w6, w7, w8, q1, q2, ys, ms, ds, fs, hsub, -⟩ := h
  exact ⟨_, hsub⟩

theorem matchAt_length {cs : List Char} {d f : String} {rest : List Char}
    (h : matchAt cs = some (d, f, rest)) : rest.length < cs.length := by
  obtain ⟨sub, hcs, hpat⟩ := matchAt_sound cs d f rest h
  obtain ⟨t, hsub⟩ := patMatch_head hpat
  subst hcs hsub
  simp only [List.length_append, List.length_cons]
  omega

theorem matchAt_none {cs : List Char} (h : matchAt cs = none) : NoMatchAt cs := by
  intro sub rest d f hcs hpat
  have h2 := matchAt_complete sub rest d f hpat
  rw [← hcs, h] at h2
  cases h2

theorem scanF_eq : ∀ (f1 f2 : ℕ) (cs : List Char),
    cs.length ≤ f1 → cs.length ≤ f2 → scanF f1 cs = scanF f2 cs := by
  intro f1
  induction f1 with
  | zero =>
    intro f2 cs h1 _
    have hcs : cs = [] := List.eq_nil_of_length_eq_zero (Nat.le_zero.mp h1)
    subst hcs
    cases f2 <;> rfl
  | succ n ih =>
    intro f2 cs h1 h2
    rcases cs with _ | ⟨c, t⟩
    · cases f2 <;> rfl
    rcases f2 with _ | f2'
    · simp at h2
    simp only [List.length_cons] at h1 h2
    show (match matchAt (c :: t) with
      | some (d, f, rest) => (d, f) :: scanF n rest
      | none => scanF n t) =
      (match matchAt (c :: t) with
      | some (d, f, rest) => (d, f) :: scanF f2' rest
      | none => scanF f2' t)
    rcases hm : matchAt (c :: t) with _ | ⟨d, f, rest⟩
    · show scanF n t = scanF f2' t
      exact ih f2' t (by omega) (by omega)
    · have hl := matchAt_length hm
      simp only [List.length_cons] at hl
      show (d, f) :: scanF n rest = (d, f) :: scanF f2' rest
      rw [ih f2' rest (by omega) (by omega)]

theorem scan_cons (c : Char) (cs : List Char) :
    scan (c :: cs) = match matchAt (c :: cs) with
      | some (d, f, rest) => (d, f) :: scan rest
      | none => scan cs := by
  show scanF (cs.length + 1) (c :: cs) = _
  show (match matchAt (c :: cs) with
    | some (d, f, rest) => (d, f) :: scanF cs.length rest
    | none => scanF cs.length cs) = _
  rcases hm : matchAt (c :: cs) with _ | ⟨d, f, rest⟩
  · rfl
  · have hl := matchAt_length hm
    simp only [List.length_cons] at hl
    show (d, f) :: scanF cs.length rest = (d, f) :: scan rest
    rw [scanF_eq cs.length rest.length rest (by omega) le_rfl]
    rfl

/-- The scanner satisfies the declarative `finditer` specification. -/
theorem scan_spec (cs : List Char) : ScanSpec cs (scan cs) := by
  have H : ∀ (n : ℕ) (cs : List Char), cs.length ≤ n → ScanSpec cs (scan cs) := by
    intro n
    induction n with
    | zero =>
      intro cs h
      have hcs : cs = [] := List.eq_nil_of_length_eq_zero (Nat.le_zero.mp h)
      subst hcs
      exact ScanSpec.nil
    | succ n ih =>
      intro cs hlen
      rcases cs with _ | ⟨c, t⟩
      · exact ScanSpec.nil
      simp only [List.length_cons] at hlen
      rw [scan_cons]
      rcases hm : matchAt (c :: t) with _ | ⟨d, f, rest⟩
      · exact ScanSpec.skip c t _ (matchAt_none hm) (ih t (by omega))
      · obtain ⟨sub, hcs, hpat⟩ := matchAt_sound _ _ _ _ hm
        have hl := matchAt_length hm
        simp only [List.length_cons] at hl
        exact ScanSpec.found _ sub rest d f _ hcs hpat (ih rest (by omega))
  exact H cs.length cs le_rfl

/-! ### Component-level helper lemmas -/

theorem getLast?_cons_or {α : Type} (a : α) (l : List α) :
    (a :: l).getLast? = Option.or l.getLast? (some a) := by
  induction l generalizing a with
  | nil => rfl
  | cons b t ih =>
    rw [List.getLast?_cons_cons, ih b]
    rcases ht : t.getLast? with _ | x
    · simp [Option.or]
    · simp [Option.or]

theorem mapM_option_eq_some_map {α β : Type} (f : α → Option β) (g : α → β) :
    ∀ l : List α, (∀ x ∈ l, f x = some (g x)) → l.mapM f = some (l.map g)
  | [], _ => rfl
  | x :: t, h => by
    rw [List.mapM_cons, h x (by simp),
      mapM_option_eq_some_map f g t (fun y hy => h y (by simp [hy]))]
    rfl

theorem mapM_option_isSome {α β : Type} (f : α → Option β) :
    ∀ {l : List α} {l' : List β}, l.mapM f = some l' →
      ∀ x ∈ l, (f x).isSome
  | [], l', _ => by simp
  | x :: t, l', h => by
    rw [List.mapM_cons] at h
    rcases hf : f x with _ | y
    · rw [hf] at h
      cases h
    · rw [hf] at h
      intro z hz
      rcases List.mem_cons.mp hz with rfl | hz'
      · rw [hf]; rfl
      · rcases ht : t.mapM f with _ | t'
        · rw [ht] at h
          cases h
        · exact mapM_option_isSome f ht z hz'

theorem lastVal_map {α β K V : Type} [DecidableEq K] (f : β → Option (K × V))
    (g : α → β) : ∀ (l : List α) (k : K),
    lastVal f (l.map g) k = lastVal (fun a => f (g a)) l k
  | [], _ => rfl
  | a :: t, k => by
    simp only [List.map_cons, lastVal, lastVal_map f g t k]

theorem mergeParse_eq_gRec {it : RawRecord} {s : String} {dd : Date}
    (h1 : it.data = some s) (h2 : parseDateDMY s = some dd) :
    mergeParse it = some (gRec it) := by
  simp only [mergeParse, gRec, h1, Option.getD_some, h2, Option.map_some']

theorem gRec_month {it : RawRecord} {s : String} {dd : Date}
    (h1 : it.data = some s) (h2 : parseDateDMY s = some dd) :
    (gRec it).1 = month_key_iso dd ∧ (gRec it).2 = it.valor ∧
      recMonthKey it = some ((gRec it).1) := by
  simp only [gRec, recMonthKey, recDate, h1, Option.getD_some, h2,
    Option.map_some']
  exact ⟨trivial, trivial, trivial⟩

theorem lastMonthVal_cons (it : RawRecord) (l : List RawRecord) (mk : String) :
    lastMonthVal (it :: l) mk =
      Option.or (lastMonthVal l mk)
        (if (mergeParse it).map Prod.fst = some mk then some it.valor
         else none) := by
  simp only [lastMonthVal, List.filter_cons]
  by_cases hp : (mergeParse it).map Prod.fst = some mk
  · rw [if_pos (by simpa using hp), if_pos hp, getLast?_cons_or]
    rcases hfl : (List.filter (fun it =>
        decide ((mergeParse it).map Prod.fst = some mk)) l).getLast? with _ | x <;>
      simp [hfl, Option.or]
  · rw [if_neg (by simpa using hp), if_neg hp]
    rcases hfl : (List.filter (fun it =>
        decide ((mergeParse it).map Prod.fst = some mk)) l).getLast? with _ | x <;>
      simp [hfl, Option.or]

theorem lastVal_congr {α K V : Type} [DecidableEq K]
    {f f' : α → Option (K × V)} (h : ∀ a, f a = f' a) :
    ∀ (l : List α) (k : K), lastVal f l k = lastVal f' l k
  | [], _ => rfl
  | a :: t, k => by
    simp only [lastVal, h a, lastVal_congr h t k]

theorem lastVal_pass_eq (cond : String → Bool) :
    ∀ (l : List RawRecord),
    (∀ it ∈ l, ∃ s dd, it.data = some s ∧ parseDateDMY s = some dd) →
    ∀ mk : String,
    lastVal (fun a => if cond (gRec a).1 then some (gRec a) else none) l mk =
      if cond mk then lastMonthVal l mk else none
  | [], _, mk => by
    rcases h : cond mk <;> simp [lastVal, lastMonthVal, h]
  | it :: t, hp, mk => by
    obtain ⟨s, dd, h1, h2⟩ := hp it (by simp)
    have ih := lastVal_pass_eq cond t (fun x hx => hp x (by simp [hx])) mk
    have hmp : mergeParse it = some (gRec it) := mergeParse_eq_gRec h1 h2
    have hv : (gRec it).2 = it.valor := rfl
    rw [lastMonthVal_cons]
    simp only [lastVal, ih, hmp, Option.map_some']
    by_cases hk : (gRec it).1 = mk <;>
      rcases hc2 : cond (gRec it).1 with _ | _ <;>
        rcases hc : cond mk with _ | _ <;>
          rcases hl : lastMonthVal t mk with _ | x <;>
            simp_all [Option.or]

theorem lastMonthVal_origin {l : List RawRecord} {mk : String}
    {v : Option String} (h : lastMonthVal l mk = some v) :
    ∃ it ∈ l, (mergeParse it).map Prod.fst = some mk ∧ it.valor = v := by
  unfold lastMonthVal at h
  rcases hl : (l.filter (fun it =>
      decide ((mergeParse it).map Prod.fst = some mk))).getLast? with _ | it
  · rw [hl] at h
    cases h
  · rw [hl] at h
    injection h with hv
    have hmem := List.mem_of_mem_getLast? hl
    rw [List.mem_filter] at hmem
    exact ⟨it, hmem.1, by simpa using hmem.2, hv⟩

theorem mergeParse_fst {it : RawRecord} {mk : String}
    (h : (mergeParse it).map Prod.fst = some mk) :
    ∃ s dd, it.data = some s ∧ parseDateDMY s = some dd ∧
      mk = month_key_iso dd := by
  unfold mergeParse at h
  rcases hd : it.data with _ | s
  · rw [hd] at h
    cases h
  · rw [hd] at h
    replace h : Option.map Prod.fst ((parseDateDMY s).map
        (fun d => (month_key_iso d, it.valor))) = some mk := h
    rcases hp : parseDateDMY s with _ | dd
    · rw [hp] at h
      cases h
    · rw [hp] at h
      simp only [Option.map_some'] at h
      injection h with h2
      exact ⟨s, dd, rfl, hp, h2.symm⟩

theorem filterMap_map_eq_map {α β γ : Type} (g : α → β) (f : β → Option γ)
    (h : α → γ) : ∀ l : List α, (∀ x ∈ l, f (g x) = some (h x)) →
    (l.map g).filterMap f = l.map h
  | [], _ => rfl
  | x :: t, hp => by
    simp only [List.map_cons, List.filterMap_cons, hp x (by simp)]
    rw [filterMap_map_eq_map g f h t (fun y hy => hp y (by simp [hy]))]

theorem mergePoupAux_chars (cutoff : String) (itemsOld itemsNew : List RawRecord)
    (hOld : ∀ it ∈ itemsOld, ∃ s dd, it.data = some s ∧ parseDateDMY s = some dd)
    (hNew : ∀ it ∈ itemsNew, ∃ s dd, it.data = some s ∧ parseDateDMY s = some dd) :
    ∃ out, mergePoupAux cutoff itemsOld itemsNew = some out ∧
      List.Pairwise (fun a b => strLtB a b = true) (out.filterMap recMonthKey) ∧
      (∀ r ∈ out, ∃ it s dd0, (it ∈ itemsOld ∨ it ∈ itemsNew) ∧
        it.data = some s ∧ parseDateDMY s = some dd0 ∧
        recDate r = some ⟨dd0.year, dd0.month, 1⟩ ∧
        recMonthKey r = some (month_key_iso dd0) ∧
        r.data = some ⟨'0' :: '1' :: '/' :: (pad2L dd0.month ++ '/' :: pad4L dd0.year)⟩) ∧
      (∀ mk v, (∃ r ∈ out, recMonthKey r = some mk ∧ r.valor = v) ↔
        ((strLtB mk cutoff = true ∧ lastMonthVal itemsOld mk = some v) ∨
         (strLtB mk cutoff = false ∧ lastMonthVal itemsNew mk = some v))) := by
  classical
  have hOldM : itemsOld.mapM mergeParse = some (itemsOld.map gRec) :=
    mapM_option_eq_some_map _ _ _ (fun it hit => by
      obtain ⟨s, dd, h1, h2⟩ := hOld it hit
      exact mergeParse_eq_gRec h1 h2)
  have hNewM : itemsNew.mapM mergeParse = some (itemsNew.map gRec) :=
    mapM_option_eq_some_map _ _ _ (fun it hit => by
      obtain ⟨s, dd, h1, h2⟩ := hNew it hit
      exact mergeParse_eq_gRec h1 h2)
  set m1 := dictFold (fun p : String × Option String =>
    if strLtB p.1 cutoff then some (p.1, p.2) else none) (itemsOld.map gRec) []
    with hm1def
  set m2 := dictFold (fun p : String × Option String =>
    if strLtB p.1 cutoff then none else some (p.1, p.2)) (itemsNew.map gRec) m1
    with hm2def
  have hlook : ∀ mk : String, lookupA m2 mk =
      if strLtB mk cutoff then lastMonthVal itemsOld mk
      else lastMonthVal itemsNew mk := by
    intro mk
    have e1 : lookupA m2 mk = Option.or
        (lastVal (fun p : String × Option String =>
          if strLtB p.1 cutoff then none else some (p.1, p.2))
          (itemsNew.map gRec) mk)
        (lookupA m1 mk) := lookupA_dictFold _ _ _ _
    have e2 : lookupA m1 mk = Option.or
        (lastVal (fun p : String × Option String =>
          if strLtB p.1 cutoff then some (p.1, p.2) else none)
          (itemsOld.map gRec) mk)
        (lookupA ([] : List (String × Option String)) mk) :=
      lookupA_dictFold _ _ _ _
    have e3 : lastVal (fun p : String × Option String =>
        if strLtB p.1 cutoff then none else some (p.1, p.2))
        (itemsNew.map gRec) mk =
        if strLtB mk cutoff then none else lastMonthVal itemsNew mk := by
      rw [lastVal_map]
      rw [@lastVal_congr _ _ _ _ _ (fun a =>
        if (! strLtB (gRec a).1 cutoff) = true then some (gRec a) else none)
        (fun a => by
          show (if strLtB (gRec a).1 cutoff = true then none
              else some ((gRec a).1, (gRec a).2)) =
            (if (! strLtB (gRec a).1 cutoff) = true then some (gRec a) else none)
          by_cases h : strLtB (gRec a).1 cutoff = true
          · rw [if_pos h, if_neg (by simp [h])]
          · rw [if_neg h, if_pos (by simp [h])])]
      have hp2 : lastVal (fun a =>
          if (! strLtB (gRec a).1 cutoff) = true then some (gRec a) else none)
          itemsNew mk =
          if (! strLtB mk cutoff) = true then lastMonthVal itemsNew mk
          else none :=
        lastVal_pass_eq (fun k => ! strLtB k cutoff) itemsNew hNew mk
      rw [hp2]
      rcases h : strLtB mk cutoff <;> simp [h]
    have e4 : lastVal (fun p : String × Option String =>
        if strLtB p.1 cutoff then some (p.1, p.2) else none)
        (itemsOld.map gRec) mk =
        if strLtB mk cutoff then lastMonthVal itemsOld mk else none := by
      rw [lastVal_map]
      rw [@lastVal_congr _ _ _ _ _ (fun a =>
        if strLtB (gRec a).1 cutoff = true then some (gRec a) else none)
        (fun a => by
          show (if strLtB (gRec a).1 cutoff = true
              then some ((gRec a).1, (gRec a).2) else none) =
            (if strLtB (gRec a).1 cutoff = true then some (gRec a) else none)
          by_cases h : strLtB (gRec a).1 cutoff = true
          · rw [if_pos h]
          · rw [if_neg h])]
      exact lastVal_pass_eq (fun k => strLtB k cutoff) itemsOld hOld mk
    rw [e1, e2, e3, e4]
    rcases h : strLtB mk cutoff <;>
      rcases h2 : lastMonthVal itemsOld mk with _ | a <;>
        rcases h3 : lastMonthVal itemsNew mk with _ | b <;>
          simp [h, Option.or, lookupA]
  have hnodup : (keysOf m2).Nodup := by
    rw [hm2def]
    refine nodup_keysOf_dictFold _ _ _ ?_
    rw [hm1def]
    exact nodup_keysOf_dictFold _ _ _ (by simp [keysOf])
  have horig : ∀ mk : String, mk ∈ keysOf m2 → ∃ it s dd0,
      (it ∈ itemsOld ∨ it ∈ itemsNew) ∧ it.data = some s ∧
      parseDateDMY s = some dd0 ∧ mk = month_key_iso dd0 := by
    intro mk hmk
    rw [mem_keysOf_iff_lookup, hlook mk] at hmk
    rcases h : strLtB mk cutoff <;> rw [h] at hmk <;>
      [rw [if_neg Bool.false_ne_true] at hmk; rw [if_pos rfl] at hmk]
    · rcases hl : lastMonthVal itemsNew mk with _ | v
      · rw [hl] at hmk
        exact absurd rfl hmk
      · obtain ⟨it, hit, hfst, _⟩ := lastMonthVal_origin hl
        obtain ⟨s, dd, h1, h2, h3⟩ := mergeParse_fst hfst
        exact ⟨it, s, dd, Or.inr hit, h1, h2, h3⟩
    · rcases hl : lastMonthVal itemsOld mk with _ | v
      · rw [hl] at hmk
        exact absurd rfl hmk
      · obtain ⟨it, hit, hfst, _⟩ := lastMonthVal_origin hl
        obtain ⟨s, dd, h1, h2, h3⟩ := mergeParse_fst hfst
        exact ⟨it, s, dd, Or.inl hit, h1, h2, h3⟩
  set ks := sortByKey listLtB id (m2.map (fun b => b.1.data)) with hksdef
  have hks : ∀ k : List Char, k ∈ ks ↔ (⟨k⟩ : String) ∈ keysOf m2 := by
    intro k
    rw [hksdef, mem_sortByKey]
    constructor
    · intro hk
      obtain ⟨b, hb, hbk⟩ := List.mem_map.mp hk
      subst hbk
      exact List.mem_map_of_mem Prod.fst hb
    · intro hk
      obtain ⟨b, hb, hbk⟩ := List.mem_map.mp hk
      exact List.mem_map.mpr ⟨b, hb, by rw [hbk]⟩
  have horigk : ∀ k ∈ ks, ∃ it s dd0,
      (it ∈ itemsOld ∨ it ∈ itemsNew) ∧ it.data = some s ∧
      parseDateDMY s = some dd0 ∧ (⟨k⟩ : String) = month_key_iso dd0 :=
    fun k hk => horig ⟨k⟩ ((hks k).mp hk)
  -- the record built for one key
  let g : List Char → RawRecord := fun k =>
    match splitOnChar '-' k with
    | [ys2, ms2] => ⟨some ⟨'0' :: '1' :: '/' :: (ms2 ++ '/' :: ys2)⟩,
        (lookupA m2 ⟨k⟩).getD none⟩
    | _ => ⟨none, none⟩
  have hgk : ∀ k ∈ ks, mergeOutRecord ⟨k⟩ ((lookupA m2 ⟨k⟩).getD none) =
      some (g k) := by
    intro k hk
    obtain ⟨it, s, dd0, _, _, hp, hkey⟩ := horigk k hk
    have hsplit : splitOnChar '-' k = [pad4L dd0.year, pad2L dd0.month] := by
      have : k = (month_key_iso dd0).data := by rw [← hkey]
      rw [this]
      exact splitOnChar_month_key_iso dd0
    simp only [mergeOutRecord, g, hsplit]
    rfl
  have hmapM : (ks.mapM (fun k => mergeOutRecord ⟨k⟩
      ((lookupA m2 ⟨k⟩).getD none))) = some (ks.map g) :=
    mapM_option_eq_some_map _ _ _ hgk
  -- record-level facts
  have hrec : ∀ k ∈ ks, ∃ it s dd0,
      (it ∈ itemsOld ∨ it ∈ itemsNew) ∧ it.data = some s ∧
      parseDateDMY s = some dd0 ∧
      recDate (g k) = some ⟨dd0.year, dd0.month, 1⟩ ∧
      recMonthKey (g k) = some (month_key_iso dd0) ∧
      (⟨k⟩ : String) = month_key_iso dd0 ∧
      (g k).data = some ⟨'0' :: '1' :: '/' :: (pad2L dd0.month ++ '/' :: pad4L dd0.year)⟩ ∧
      (g k).valor = (lookupA m2 ⟨k⟩).getD none := by
    intro k hk
    obtain ⟨it, s, dd0, hmem, hdata, hp, hkey⟩ := horigk k hk
    obtain ⟨hd1, hd2, hm1b, hm2b, hy1, hy2, _⟩ := parseDateDMY_bounds hp
    have hsplit : splitOnChar '-' k = [pad4L dd0.year, pad2L dd0.month] := by
      have hkd : k = (month_key_iso dd0).data := by rw [← hkey]
      rw [hkd]
      exact splitOnChar_month_key_iso dd0
    have hgdef : g k = ⟨some ⟨'0' :: '1' :: '/' :: (pad2L dd0.month ++ '/' :: pad4L dd0.year)⟩,
        (lookupA m2 ⟨k⟩).getD none⟩ := by
      simp only [g, hsplit]
    have hparse : parseDateDMY ⟨'0' :: '1' :: '/' :: (pad2L dd0.month ++ '/' :: pad4L dd0.year)⟩ =
        some ⟨dd0.year, dd0.month, 1⟩ :=
      parseDateDMY_build dd0.year dd0.month hy1 hy2 hm1b hm2b
    have hrd : recDate (g k) = some ⟨dd0.year, dd0.month, 1⟩ := by
      rw [hgdef]
      simp only [recDate, Option.getD_some]
      exact hparse
    refine ⟨it, s, dd0, hmem, hdata, hp, hrd, ?_, hkey, by rw [hgdef], by rw [hgdef]⟩
    rw [recMonthKey, hrd]
    rfl
  refine ⟨ks.map g, ?_, ?_, ?_, ?_⟩
  · show mergePoupAux cutoff itemsOld itemsNew = some (ks.map g)
    rw [mergePoupAux]
    simp only [hOldM, hNewM, Option.bind_eq_bind, Option.some_bind]
    rw [← hm1def, ← hm2def, ← hksdef]
    exact hmapM
  · -- months strictly ascending
    have hfm : (ks.map g).filterMap recMonthKey = ks.map (fun k => (⟨k⟩ : String)) := by
      refine filterMap_map_eq_map g recMonthKey (fun k => (⟨k⟩ : String)) ks ?_
      intro k hk
      obtain ⟨it, s, dd0, _, _, _, _, hmk, hkey, _, _⟩ := hrec k hk
      rw [hmk]
      exact congrArg some hkey.symm
    rw [hfm]
    rw [List.pairwise_map]
    have hnd2 : (m2.map (fun b => b.1.data)).Nodup := by
      have : m2.map (fun b => b.1.data) = (keysOf m2).map String.data := by
        rw [keysOf, List.map_map]
        rfl
      rw [this]
      refine hnodup.map ?_
      intro a b hab
      cases a; cases b
      exact congrArg String.mk hab
    have := sortByKey_pairwise_strict listLtB id
      (fun a b => listLtB_asymm a b) (fun a b c => listLtB_trans a b c)
      (fun a b => listLtB_conn a b) (m2.map (fun b => b.1.data))
      (by simpa using hnd2)
    rw [← hksdef] at this
    exact this.imp (fun h => h)
  · -- record shapes
    intro r hr
    obtain ⟨k, hk, hkr⟩ := List.mem_map.mp hr
    subst hkr
    obtain ⟨it, s, dd0, hmem, hdata, hp, hrd, hmk, hkey, hdat, _⟩ := hrec k hk
    exact ⟨it, s, dd0, hmem, hdata, hp, hrd, hmk, hdat⟩
  · -- month/value characterization
    intro mk v
    constructor
    · rintro ⟨r, hr, hrmk, hrv⟩
      obtain ⟨k, hk, hkr⟩ := List.mem_map.mp hr
      subst hkr
      obtain ⟨it, s, dd0, hmem, hdata, hp, hrd, hmk2, hkey, hdat, hval⟩ := hrec k hk
      have hmkk : mk = (⟨k⟩ : String) := by
        rw [hmk2] at hrmk
        injection hrmk with h5
        rw [← h5, ← hkey]
      subst hmkk
      have hmem2 : (⟨k⟩ : String) ∈ keysOf m2 := (hks k).mp hk
      rw [mem_keysOf_iff_lookup] at hmem2
      rcases hlk : lookupA m2 ⟨k⟩ with _ | v0
      · exact absurd hlk hmem2
      · rw [hlk] at hval
        simp only [Option.getD_some] at hval
        have := hlook ⟨k⟩
        rw [hlk] at this
        rcases h : strLtB (⟨k⟩ : String) cutoff <;> rw [h] at this <;>
          [rw [if_neg Bool.false_ne_true] at this; rw [if_pos rfl] at this]
        · exact Or.inr ⟨rfl, by rw [← this, ← hval, hrv]⟩
        · exact Or.inl ⟨rfl, by rw [← this, ← hval, hrv]⟩
    · rintro (⟨hlt, hlast⟩ | ⟨hlt, hlast⟩)
      · have hlk : lookupA m2 mk = some v := by
          rw [hlook mk, hlt, if_pos rfl]
          exact hlast
        have hmem2 : mk ∈ keysOf m2 := by
          rw [mem_keysOf_iff_lookup, hlk]
          simp
        have hkmem : mk.data ∈ ks := by
          rw [hks mk.data]
          cases mk
          exact hmem2
        refine ⟨g mk.data, List.mem_map_of_mem g hkmem, ?_, ?_⟩
        · obtain ⟨it, s, dd0, _, _, _, _, hmk2, hkey, _, _⟩ := hrec mk.data hkmem
          rw [hmk2, ← hkey]
        · obtain ⟨it, s, dd0, _, _, _, _, _, _, _, hval⟩ := hrec mk.data hkmem
          rw [hval]
          have hlk2 : lookupA m2 ⟨mk.data⟩ = some v := by
            cases mk
            exact hlk
          rw [hlk2]
          rfl
      · have hlk : lookupA m2 mk = some v := by
          rw [hlook mk, hlt, if_neg Bool.false_ne_true]
          exact hlast
        have hmem2 : mk ∈ keysOf m2 := by
          rw [mem_keysOf_iff_lookup, hlk]
          simp
        have hkmem : mk.data ∈ ks := by
          rw [hks mk.data]
          cases mk
          exact hmem2
        refine ⟨g mk.data, List.mem_map_of_mem g hkmem, ?_, ?_⟩
        · obtain ⟨it, s, dd0, _, _, _, _, hmk2, hkey, _, _⟩ := hrec mk.data hkmem
          rw [hmk2, ← hkey]
        · obtain ⟨it, s, dd0, _, _, _, _, _, _, _, hval⟩ := hrec mk.data hkmem
          rw [hval]
          have hlk2 : lookupA m2 ⟨mk.data⟩ = some v := by
            cases mk
            exact hlk
          rw [hlk2]
          rfl

/-! ### Further generic lemmas -/

/-- Two strictly ascending lists (under an asymmetric, connected
comparator) with the same members are equal. -/
theorem strictSorted_eq_of_mem_iff {α : Type} (lt : α → α → Bool)
    (hasym : ∀ a b, lt a b = true → lt b a = false)
    (l1 : List α) : ∀ l2 : List α,
    List.Pairwise (fun a b => lt a b = true) l1 →
    List.Pairwise (fun a b => lt a b = true) l2 →
    (∀ a, a ∈ l1 ↔ a ∈ l2) → l1 = l2 := by
  have hirr : ∀ x, lt x x = false := by
    intro x
    rcases h : lt x x with _ | _
    · rfl
    · exact h.symm.trans (hasym x x h)
  induction l1 with
  | nil =>
    intro l2 _ _ hmem
    cases l2 with
    | nil => rfl
    | cons b t2 => exact absurd ((hmem b).mpr (by simp)) (by simp)
  | cons a t1 ih =>
    intro l2 h1 h2 hmem
    cases l2 with
    | nil => exact absurd ((hmem a).mp (by simp)) (by simp)
    | cons b t2 =>
      have hab : a = b := by
        rcases List.mem_cons.mp ((hmem a).mp (by simp)) with h | ha2
        · exact h
        · rcases List.mem_cons.mp ((hmem b).mpr (by simp)) with h | hb1
          · exact h.symm
          · have hba : lt b a = true := (List.pairwise_cons.mp h2).1 a ha2
            have hab2 : lt a b = true := (List.pairwise_cons.mp h1).1 b hb1
            have hf := hasym a b hab2
            rw [hba] at hf
            exact Bool.noConfusion hf
      subst hab
      have htl : ∀ x, x ∈ t1 ↔ x ∈ t2 := by
        intro x
        constructor
        · intro hx
          rcases List.mem_cons.mp ((hmem x).mp (List.mem_cons_of_mem a hx))
            with h | h
          · rw [h] at hx
            have hf := (List.pairwise_cons.mp h1).1 a hx
            rw [hirr a] at hf
            exact Bool.noConfusion hf
          · exact h
        · intro hx
          rcases List.mem_cons.mp ((hmem x).mpr (List.mem_cons_of_mem a hx))
            with h | h
          · rw [h] at hx
            have hf := (List.pairwise_cons.mp h2).1 a hx
            rw [hirr a] at hf
            exact Bool.noConfusion hf
          · exact h
      rw [ih t2 (List.pairwise_cons.mp h1).2 (List.pairwise_cons.mp h2).2 htl]

/-- `mapM` only depends on the pointwise values of its function. -/
theorem mapM_congr {α β : Type} (f g : α → Option β) :
    ∀ l : List α, (∀ a ∈ l, f a = g a) → l.mapM f = l.mapM g
  | [], _ => rfl
  | a :: t, h => by
    rw [List.mapM_cons, List.mapM_cons, h a (by simp),
      mapM_congr f g t (fun x hx => h x (by simp [hx]))]

/-- `lastVal` through a passing key filter. -/
theorem lastVal_filter_pos {K V : Type} [DecidableEq K] (P : K → Bool) :
    ∀ (ps : List (K × V)) (k : K), P k = true →
    lastVal (fun p : K × V => if P p.1 then some (p.1, p.2) else none) ps k =
      lastVal (fun p : K × V => some (p.1, p.2)) ps k
  | [], _, _ => rfl
  | a :: t, k, hk => by
    simp only [lastVal]
    rw [lastVal_filter_pos P t k hk]
    congr 1
    by_cases hp : P a.1 = true
    · rw [if_pos hp]
    · rw [if_neg hp]
      by_cases hak : a.1 = k
      · rw [hak] at hp
        exact absurd hk hp
      · show (none : Option V) = if a.1 = k then some a.2 else none
        rw [if_neg hak]

/-- `lastVal` through a rejecting key filter. -/
theorem lastVal_filter_neg {K V : Type} [DecidableEq K] (P : K → Bool) :
    ∀ (ps : List (K × V)) (k : K), P k = false →
    lastVal (fun p : K × V => if P p.1 then some (p.1, p.2) else none) ps k =
      none
  | [], _, _ => rfl
  | a :: t, k, hk => by
    simp only [lastVal]
    rw [lastVal_filter_neg P t k hk]
    by_cases hp : P a.1 = true
    · rw [if_pos hp]
      by_cases hak : a.1 = k
      · rw [hak] at hp
        rw [hp] at hk
        exact Bool.noConfusion hk
      · show Option.or none (if a.1 = k then some a.2 else none) = none
        rw [if_neg hak]
        rfl
    · rw [if_neg hp]
      rfl

/-- `lastVal` through a complemented passing key filter. -/
theorem lastVal_filterNot_pos {K V : Type} [DecidableEq K] (P : K → Bool) :
    ∀ (ps : List (K × V)) (k : K), P k = false →
    lastVal (fun p : K × V => if P p.1 then none else some (p.1, p.2)) ps k =
      lastVal (fun p : K × V => some (p.1, p.2)) ps k
  | [], _, _ => rfl
  | a :: t, k, hk => by
    simp only [lastVal]
    rw [lastVal_filterNot_pos P t k hk]
    congr 1
    by_cases hp : P a.1 = true
    · rw [if_pos hp]
      by_cases hak : a.1 = k
      · rw [hak] at hp
        rw [hp] at hk
        exact Bool.noConfusion hk
      · show (none : Option V) = if a.1 = k then some a.2 else none
        rw [if_neg hak]
    · rw [if_neg hp]

/-- `lastVal` through a complemented rejecting key filter. -/
theorem lastVal_filterNot_neg {K V : Type} [DecidableEq K] (P : K → Bool) :
    ∀ (ps : List (K × V)) (k : K), P k = true →
    lastVal (fun p : K × V => if P p.1 then none else some (p.1, p.2)) ps k =
      none
  | [], _, _ => rfl
  | a :: t, k, hk => by
    simp only [lastVal]
    rw [lastVal_filterNot_neg P t k hk]
    by_cases hp : P a.1 = true
    · rw [if_pos hp]
      rfl
    · rw [if_neg hp]
      by_cases hak : a.1 = k
      · rw [hak] at hp
        exact absurd hk hp
      · show Option.or none (if a.1 = k then some a.2 else none) = none
        rw [if_neg hak]
        rfl

/-- Origin of an item accumulated by the window-fetch loop of
`fetch_sgs_series_range`. -/
theorem mem_foldl_resp (resp : String → Date → Date → Option (List RawRecord))
    (serie : String) :
    ∀ (ws : List (Date × Date)) (init : List RawRecord) (r : RawRecord),
    r ∈ ws.foldl (fun acc w => match resp serie w.1 w.2 with
      | some js => acc ++ js
      | none => acc) init →
    r ∈ init ∨ ∃ w ∈ ws, ∃ js, resp serie w.1 w.2 = some js ∧ r ∈ js
  | [], _, _, h => Or.inl h
  | w :: t, init, r, h => by
    simp only [List.foldl_cons] at h
    cases hw : resp serie w.1 w.2 with
    | none =>
      rw [hw] at h
      rcases mem_foldl_resp resp serie t init r h with h | ⟨w2, hw2, js, hjs, hr⟩
      · exact Or.inl h
      · exact Or.inr ⟨w2, by simp [hw2], js, hjs, hr⟩
    | some js0 =>
      rw [hw] at h
      rcases mem_foldl_resp resp serie t (init ++ js0) r h
        with h | ⟨w2, hw2, js, hjs, hr⟩
      · rcases List.mem_append.mp h with h | h
        · exact Or.inl h
        · exact Or.inr ⟨w, by simp, js0, hw, h⟩
      · exact Or.inr ⟨w2, by simp [hw2], js, hjs, hr⟩

/-! ### `updMulti` and the selic buckets -/

theorem mem_keysOf_updMulti {K V : Type} [DecidableEq K] :
    ∀ (m : List (K × List V)) (k0 : K) (v : V) (k : K),
    k ∈ keysOf (updMulti m k0 v) ↔ k ∈ keysOf m ∨ k = k0
  | [], k0, v, k => by simp [updMulti, keysOf]
  | (k1, vs) :: rest, k0, v, k => by
    by_cases h1 : k1 = k0
    · subst h1
      have he : updMulti ((k1, vs) :: rest) k1 v = (k1, vs ++ [v]) :: rest := by
        show (if k1 = k1 then (k1, vs ++ [v]) :: rest
          else (k1, vs) :: updMulti rest k1 v) = (k1, vs ++ [v]) :: rest
        rw [if_pos rfl]
      rw [he]
      simp only [keysOf, List.map_cons, List.mem_cons]
      tauto
    · simp only [updMulti, if_neg h1, keysOf, List.map_cons, List.mem_cons]
      rw [show (List.map Prod.fst (updMulti rest k0 v) : List K) =
        keysOf (updMulti rest k0 v) from rfl, mem_keysOf_updMulti rest k0 v k]
      rw [show (List.map Prod.fst rest : List K) = keysOf rest from rfl]
      tauto

theorem nodup_keysOf_updMulti {K V : Type} [DecidableEq K] :
    ∀ (m : List (K × List V)) (k0 : K) (v : V),
    (keysOf m).Nodup → (keysOf (updMulti m k0 v)).Nodup
  | [], k0, v, _ => by simp [updMulti, keysOf]
  | (k1, vs) :: rest, k0, v, h => by
    simp only [keysOf, List.map_cons, List.nodup_cons] at h
    by_cases h1 : k1 = k0
    · simp only [updMulti, if_pos h1, keysOf, List.map_cons, List.nodup_cons]
      exact h
    · simp only [updMulti, if_neg h1, keysOf, List.map_cons, List.nodup_cons]
      refine ⟨?_, nodup_keysOf_updMulti rest k0 v h.2⟩
      rw [show (List.map Prod.fst (updMulti rest k0 v) : List K) =
        keysOf (updMulti rest k0 v) from rfl]
      rw [mem_keysOf_updMulti rest k0 v k1]
      rintro (hm | hm)
      · exact h.1 hm
      · exact h1 hm

/-- Invariant of the bucket loop of `fetch_selic1178_monthly_pairs`:
bucket keys are duplicate-free and every key is the month key of some
successfully parsed date. -/
theorem selicBuckets_inv (fd : ℚ → ℚ) :
    ∀ (items : List RawRecord) (acc : List (String × List ℚ)),
    (keysOf acc).Nodup →
    (∀ k ∈ keysOf acc, ∃ d : Date, k = month_key_iso d) →
    (keysOf (items.foldl (fun buckets it =>
      match it.data, it.valor with
      | some s, some vs =>
        if s = "" ∨ vs = "" then buckets
        else
          match parseDateDMY s, parseValComma vs with
          | some d, some v =>
            updMulti buckets (month_key_iso d)
              (dailyFactorOf fd (qDivNat v 100 (by norm_num)))
          | _, _ => buckets
      | _, _ => buckets) acc)).Nodup ∧
    (∀ k ∈ keysOf (items.foldl (fun buckets it =>
      match it.data, it.valor with
      | some s, some vs =>
        if s = "" ∨ vs = "" then buckets
        else
          match parseDateDMY s, parseValComma vs with
          | some d, some v =>
            updMulti buckets (month_key_iso d)
              (dailyFactorOf fd (qDivNat v 100 (by norm_num)))
          | _, _ => buckets
      | _, _ => buckets) acc),
      ∃ d : Date, k = month_key_iso d)
  | [], acc, hnd, horig => ⟨hnd, horig⟩
  | it :: t, acc, hnd, horig => by
    simp only [List.foldl_cons]
    have hstep : ∀ acc2 : List (String × List ℚ),
        (keysOf acc2).Nodup → (∀ k ∈ keysOf acc2, ∃ d : Date, k = month_key_iso d) →
        (keysOf (match it.data, it.valor with
          | some s, some vs =>
            if s = "" ∨ vs = "" then acc2
            else
              match parseDateDMY s, parseValComma vs with
              | some d, some v =>
                updMulti acc2 (month_key_iso d)
                  (dailyFactorOf fd (qDivNat v 100 (by norm_num)))
              | _, _ => acc2
          | _, _ => acc2)).Nodup ∧
        (∀ k ∈ keysOf (match it.data, it.valor with
          | some s, some vs =>
            if s = "" ∨ vs = "" then acc2
            else
              match parseDateDMY s, parseValComma vs with
              | some d, some v =>
                updMulti acc2 (month_key_iso d)
                  (dailyFactorOf fd (qDivNat v 100 (by norm_num)))
              | _, _ => acc2
          | _, _ => acc2), ∃ d : Date, k = month_key_iso d) := by
      intro acc2 hnd2 horig2
      rcases it with ⟨da, va⟩
      rcases da with _ | s
      · exact ⟨hnd2, horig2⟩
      rcases va with _ | vs
      · exact ⟨hnd2, horig2⟩
      simp only
      by_cases he : s = "" ∨ vs = ""
      · rw [if_pos he]
        exact ⟨hnd2, horig2⟩
      rw [if_neg he]
      rcases hd : parseDateDMY s with _ | d
      · exact ⟨hnd2, horig2⟩
      rcases hv : parseValComma vs with _ | v
      · exact ⟨hnd2, horig2⟩
      simp only
      refine ⟨nodup_keysOf_updMulti _ _ _ hnd2, ?_⟩
      intro k hk
      rcases (mem_keysOf_updMulti _ _ _ k).mp hk with hk | hk
      · exact horig2 k hk
      · exact ⟨d, hk⟩
    obtain ⟨h1, h2⟩ := hstep acc hnd horig
    exact selicBuckets_inv fd t _ h1 h2

/-- Every bucket key of `selicBuckets` is a month key (hence 7
characters long), and the keys are duplicate-free. -/
theorem selicBuckets_keys (fd : ℚ → ℚ) (items : List RawRecord) :
    (keysOf (selicBuckets fd items)).Nodup ∧
    ∀ k ∈ keysOf (selicBuckets fd items), ∃ d : Date, k = month_key_iso d :=
  selicBuckets_inv fd items [] (by simp [keysOf]) (by simp [keysOf])

theorem month_key_iso_length (d : Date) :
    (month_key_iso d).data.length = 7 := by
  simp [month_key_iso, pad4L_length, pad2L_length]

/-! ### Fetcher characterizations -/

/-- `fetchRangeTail` output: ascending by parsed date, every date
parseable, and every record sourced (key and value) from an input
record whose `data` is truthy. -/
theorem fetchRangeTail_chars (allItems out : List RawRecord)
    (h : fetchRangeTail allItems = some out) :
    List.Pairwise (fun a b => recDateKey a ≤ recDateKey b) out ∧
    (∀ r ∈ out, (recDate r).isSome = true) ∧
    (∀ r ∈ out, ∃ it ∈ allItems, ∃ s, truthyData it = some s ∧
      r = ⟨some s, it.valor⟩) := by
  replace h : (if (((dictFold
        (fun r => (truthyData r).map (fun s => (s, r.valor))) allItems []).map
          (fun p => (⟨some p.1, p.2⟩ : RawRecord))).all
        (fun r => (recDate r).isSome)) = true then
      some (sortByKey (fun a b => decide (a < b)) recDateKey
        ((dictFold (fun r => (truthyData r).map (fun s => (s, r.valor)))
          allItems []).map (fun p => (⟨some p.1, p.2⟩ : RawRecord))))
    else none) = some out := h
  set seen := dictFold
    (fun r => (truthyData r).map (fun s => (s, r.valor))) allItems []
    with hseen
  set out0 := seen.map (fun p => (⟨some p.1, p.2⟩ : RawRecord)) with hout0
  by_cases hall : out0.all (fun r => (recDate r).isSome) = true
  · rw [if_pos hall] at h
    injection h with h
    subst h
    refine ⟨?_, ?_, ?_⟩
    · have := sortByKey_pairwise (fun a b : ℕ => decide (a < b)) recDateKey
        (fun a b hab => by
          simp only [decide_eq_true_eq] at hab
          simp only [decide_eq_false_iff_not]
          omega)
        (fun a b c hab hbc => by
          simp only [decide_eq_true_eq] at hab hbc ⊢
          omega) out0
      refine this.imp ?_
      intro a b hab
      simp only [decide_eq_false_iff_not] at hab
      omega
    · intro r hr
      exact List.all_eq_true.mp hall r ((mem_sortByKey _ _).mp hr)
    · intro r hr
      obtain ⟨p, hp, hpr⟩ := List.mem_map.mp ((mem_sortByKey _ _).mp hr)
      rcases mem_dictFold_origin _ allItems [] p.1 p.2 (by
          rw [← hseen]
          exact hp) with hm | ⟨it, hit, hfit⟩
      · cases hm
      · rcases Option.map_eq_some'.mp hfit with ⟨s, hts, hsv⟩
        refine ⟨it, hit, s, hts, ?_⟩
        rw [← hpr]
        injection hsv with h1 h2
        rw [← h1, ← h2]
  · rw [if_neg hall] at h
    cases h

/-- `fetch_sgs_series` output: ascending by parsed date, every date
parseable, and the last-wins dedup by the `data` field: a record
`{data: s, valor: v}` is in the output exactly when `s` is truthy and
`v` is the value of the last input record (across the concatenated
chunks) whose `data` is `s`. -/
theorem fetch_sgs_series_chars (chunks : List (Option (List RawRecord)))
    (out : List RawRecord) (h : fetch_sgs_series chunks = some out) :
    List.Pairwise (fun a b => recDateKey a ≤ recDateKey b) out ∧
    (∀ r ∈ out, (recDate r).isSome = true) ∧
    (∀ s v, (⟨some s, v⟩ : RawRecord) ∈ out ↔
      (¬ s = "" ∧ lastDataVal ((chunks.filterMap id).flatten) (some s) = some v)) := by
  replace h : (if ((dictFold (fun r : RawRecord => some (r.data, r.valor))
          ((chunks.filterMap id).flatten) []).filterMap (fun p =>
        match p.1 with
        | some s => if s = "" then none else some (⟨some s, p.2⟩ : RawRecord)
        | none => none)).all (fun r => (recDate r).isSome) = true then
      some (sortByKey (fun a b => decide (a < b)) recDateKey
        (((dictFold (fun r : RawRecord => some (r.data, r.valor))
            ((chunks.filterMap id).flatten) []).filterMap (fun p =>
          match p.1 with
          | some s => if s = "" then none else some (⟨some s, p.2⟩ : RawRecord)
          | none => none))))
    else none) = some out := h
  set allItems := (chunks.filterMap id).flatten with hall0
  set seen := dictFold (fun r : RawRecord => some (r.data, r.valor)) allItems []
    with hseen
  set out0 := seen.filterMap (fun p =>
    match p.1 with
    | some s => if s = "" then none else some (⟨some s, p.2⟩ : RawRecord)
    | none => none) with hout0
  by_cases hguard : out0.all (fun r => (recDate r).isSome) = true
  · rw [if_pos hguard] at h
    injection h with h
    subst h
    have hnd : (keysOf seen).Nodup := by
      rw [hseen]
      exact nodup_keysOf_dictFold _ _ _ (by simp [keysOf])
    refine ⟨?_, ?_, ?_⟩
    · have := sortByKey_pairwise (fun a b : ℕ => decide (a < b)) recDateKey
        (fun a b hab => by
          simp only [decide_eq_true_eq] at hab
          simp only [decide_eq_false_iff_not]
          omega)
        (fun a b c hab hbc => by
          simp only [decide_eq_true_eq] at hab hbc ⊢
          omega) out0
      refine this.imp ?_
      intro a b hab
      simp only [decide_eq_false_iff_not] at hab
      omega
    · intro r hr
      exact List.all_eq_true.mp hguard r ((mem_sortByKey _ _).mp hr)
    · intro s v
      rw [mem_sortByKey]
      have hmem : (⟨some s, v⟩ : RawRecord) ∈ out0 ↔
          (¬ s = "" ∧ (some s, v) ∈ seen) := by
        rw [hout0, List.mem_filterMap]
        constructor
        · rintro ⟨p, hp, hfp⟩
          rcases p with ⟨pd, pv⟩
          rcases pd with _ | s2
          · cases hfp
          · by_cases he : s2 = ""
            · rw [show (match (some s2 : Option String) with
                | some s => if s = "" then none
                    else some (⟨some s, pv⟩ : RawRecord)
                | none => none) = if s2 = "" then none
                    else some (⟨some s2, pv⟩ : RawRecord) from rfl,
                if_pos he] at hfp
              cases hfp
            · rw [show (match (some s2 : Option String) with
                | some s => if s = "" then none
                    else some (⟨some s, pv⟩ : RawRecord)
                | none => none) = if s2 = "" then none
                    else some (⟨some s2, pv⟩ : RawRecord) from rfl,
                if_neg he] at hfp
              injection hfp with hfp
              injection hfp with h1 h2
              injection h1 with h1
              subst h1
              subst h2
              exact ⟨he, hp⟩
        · rintro ⟨he, hp⟩
          refine ⟨(some s, v), hp, ?_⟩
          show (if s = "" then none else some (⟨some s, v⟩ : RawRecord)) =
            some (⟨some s, v⟩ : RawRecord)
          rw [if_neg he]
      rw [hmem, mem_assoc_iff_lookup seen hnd]
      rw [hseen, lookupA_dictFold]
      have hinit : lookupA ([] : List (Option String × Option String))
          (some s) = none := rfl
      rw [hinit]
      have hor : ∀ x : Option (Option String),
          Option.or x none = x := by
        intro x
        cases x <;> rfl
      rw [hor]
      rfl
  · rw [if_neg hguard] at h
    cases h

/-! ### `to_pairs` and `read_js_pairs` series shape -/

theorem to_pairs_eq_normalize (items : List RawRecord) :
    to_pairs items = pairsNormalize (items.filterMap convertRecord) := rfl

theorem pairsNormalize_nodup_keys (pairs : List (String × ℚ)) :
    ((pairsNormalize pairs).map Prod.fst).Nodup := by
  have hnd : (keysOf (dictFold (fun p : String × ℚ => some p) pairs [])).Nodup :=
    nodup_keysOf_dictFold _ _ _ (by simp [keysOf])
  exact ((sortByKey_perm strLtB Prod.fst _).map Prod.fst).nodup_iff.mpr hnd

theorem pairsNormalize_strict (pairs : List (String × ℚ)) :
    List.Pairwise (fun a b => strLtB a.1 b.1 = true) (pairsNormalize pairs) := by
  have hnd : (keysOf (dictFold (fun p : String × ℚ => some p) pairs [])).Nodup :=
    nodup_keysOf_dictFold _ _ _ (by simp [keysOf])
  exact sortByKey_pairwise_strict strLtB Prod.fst (fun a b h => strLtB_asymm h)
    (fun a b c h1 h2 => strLtB_trans h1 h2) (fun a b h1 h2 => strLtB_conn h1 h2)
    _ hnd

/-- Normalizing an already-normalized pair series is the identity. -/
theorem pairsNormalize_idem (pairs : List (String × ℚ)) :
    pairsNormalize (pairsNormalize pairs) = pairsNormalize pairs := by
  have hstrict := pairsNormalize_strict pairs
  have hnd := pairsNormalize_nodup_keys pairs
  show sortByKey strLtB Prod.fst
    (dictFold (fun p => some p) (pairsNormalize pairs) []) =
    pairsNormalize pairs
  rw [dictFold_some_eq (pairsNormalize pairs) []
    (by simpa [keysOf] using hnd)]
  rw [List.nil_append]
  exact sortByKey_sorted_id strLtB Prod.fst (pairsNormalize pairs)
    (hstrict.imp (fun h => strLtB_asymm h))

/-- `read_js_pairs` output is sorted (non-strictly) by date string,
and strictly so when the matched dates are duplicate-free. -/
theorem read_js_pairs_sorted (c : Option String) (pairs : List (String × ℚ))
    (h : read_js_pairs c = some pairs) :
    List.Pairwise (fun a b => strLtB b.1 a.1 = false) pairs ∧
    ((pairs.map Prod.fst).Nodup →
      List.Pairwise (fun a b => strLtB a.1 b.1 = true) pairs) := by
  rcases c with _ | c
  · replace h : some ([] : List (String × ℚ)) = some pairs := h
    injection h with h
    subst h
    exact ⟨List.Pairwise.nil, fun _ => List.Pairwise.nil⟩
  · replace h : (if ((scan c.data).all (fun p => (parseFloat p.2).isSome)) = true
        then some (sortByKey strLtB Prod.fst
          ((scan c.data).map (fun p => (p.1, (parseFloat p.2).getD 0))))
        else none) = some pairs := h
    by_cases hg : ((scan c.data).all (fun p => (parseFloat p.2).isSome)) = true
    · rw [if_pos hg] at h
      injection h with h
      subst h
      have h1 := sortByKey_pairwise strLtB Prod.fst (fun a b h => strLtB_asymm h)
        (fun a b c h1 h2 => strLtB_trans h1 h2)
        ((scan c.data).map (fun p => (p.1, (parseFloat p.2).getD 0)))
      refine ⟨h1, ?_⟩
      intro hnd
      have h3 : List.Pairwise (fun a b : String × ℚ => a.1 ≠ b.1)
          (sortByKey strLtB Prod.fst
            ((scan c.data).map (fun p => (p.1, (parseFloat p.2).getD 0)))) :=
        List.pairwise_map.mp hnd
      refine (h1.and h3).imp ?_
      rintro a b ⟨hf, hne⟩
      rcases hl : strLtB a.1 b.1 with _ | _
      · exact absurd (strLtB_conn hl hf) hne
      · rfl
    · rw [if_neg hg] at h
      cases h

/-- `fetch_selic1178_monthly_pairs` output is strictly ascending by
date string. -/
theorem fetch_selic1178_strict (fd : ℚ → ℚ) (items : List RawRecord) :
    List.Pairwise (fun a b => strLtB a.1 b.1 = true)
      (fetch_selic1178_monthly_pairs fd items) := by
  by_cases hi : items = []
  · have he : fetch_selic1178_monthly_pairs fd items = [] := by
      show (if items = [] then [] else _) = []
      rw [if_pos hi]
    rw [he]
    exact List.Pairwise.nil
  have he : fetch_selic1178_monthly_pairs fd items =
      (sortByKey listLtB id ((selicBuckets fd items).map (fun b => b.1.data))).map
        (fun k => ((⟨k ++ ['-', '0', '1']⟩ : String),
          compoundMonth ((lookupA (selicBuckets fd items) ⟨k⟩).getD []))) := by
    show (if items = [] then [] else _) = _
    rw [if_neg hi]
  rw [he]
  obtain ⟨hnd, horig⟩ := selicBuckets_keys fd items
  have hnd2 : ((selicBuckets fd items).map (fun b => b.1.data)).Nodup := by
    have h0 : (selicBuckets fd items).map (fun b => b.1.data) =
        (keysOf (selicBuckets fd items)).map String.data := by
      rw [keysOf, List.map_map]
      rfl
    rw [h0]
    refine hnd.map ?_
    intro a b hab
    cases a; cases b
    exact congrArg String.mk hab
  have hsorted := sortByKey_pairwise_strict listLtB id
    (fun a b h => listLtB_asymm a b h)
    (fun a b c h1 h2 => listLtB_trans a b c h1 h2)
    (fun a b h1 h2 => listLtB_conn a b h1 h2)
    ((selicBuckets fd items).map (fun b => b.1.data)) (by simpa using hnd2)
  rw [List.pairwise_map]
  have hlen : ∀ k ∈ sortByKey listLtB id
      ((selicBuckets fd items).map (fun b => b.1.data)), k.length = 7 := by
    intro k hk
    obtain ⟨b, hb2, hbk⟩ := List.mem_map.mp ((mem_sortByKey _ _).mp hk)
    obtain ⟨d, hd⟩ := horig b.1 (List.mem_map_of_mem Prod.fst hb2)
    rw [← hbk]
    show b.1.data.length = 7
    rw [hd]
    exact month_key_iso_length d
  refine List.Pairwise.imp_of_mem ?_ hsorted
  intro k1 k2 h1 h2 hlt
  show strLtB (⟨k1 ++ ['-', '0', '1']⟩ : String) ⟨k2 ++ ['-', '0', '1']⟩ = true
  exact listLtB_append_of_eq_length k1 k2 _ _
    (by rw [hlen k1 h1, hlen k2 h2]) hlt

/-! ## Claim theorems -/

/-- **C5**: merge identity — for every raw-record series `S` and any
cutover month, merging `S` with itself (as both the old and the new
side) equals `S` up to month-deduplication (later record wins), with
each date normalized to the first day of its month and the result
sorted ascending; `monthNormalizeSpec` is that spec-side normal form,
and the source's `merge_poup_series` is the instance at cutover
`2012-06`. -/
theorem C5_merge_self_identity :
    (∀ (cutoff : String) (S : List RawRecord),
      mergePoupAux cutoff S S = monthNormalizeSpec S) ∧
    (∀ S : List RawRecord, merge_poup_series S S = monthNormalizeSpec S) := by
  have main : ∀ (cutoff : String) (S : List RawRecord),
      mergePoupAux cutoff S S = monthNormalizeSpec S := by
    intro cutoff S
    cases hp : S.mapM mergeParse with
    | none =>
      simp only [mergePoupAux, monthNormalizeSpec, hp, Option.bind_eq_bind,
        Option.none_bind]
    | some ps =>
      simp only [mergePoupAux, monthNormalizeSpec, hp, Option.bind_eq_bind,
        Option.some_bind]
      set m1 := dictFold (fun p : String × Option String =>
        if strLtB p.1 cutoff then some (p.1, p.2) else none) ps [] with hm1
      set m2 := dictFold (fun p : String × Option String =>
        if strLtB p.1 cutoff then none else some (p.1, p.2)) ps m1 with hm2
      set m := dictFold (fun p : String × Option String =>
        some (p.1, p.2)) ps [] with hm
      have hinit : ∀ k : String,
          lookupA ([] : List (String × Option String)) k = none := fun _ => rfl
      have hlook : ∀ k : String, lookupA m2 k = lookupA m k := by
        intro k
        rw [hm2, lookupA_dictFold, hm1, lookupA_dictFold, hm, lookupA_dictFold,
          hinit k]
        rcases hc : strLtB k cutoff with _ | _
        · have e1 : lastVal (fun p : String × Option String =>
              if strLtB p.1 cutoff then none else some (p.1, p.2)) ps k =
              lastVal (fun p : String × Option String => some (p.1, p.2)) ps k :=
            lastVal_filterNot_pos (fun x => strLtB x cutoff) ps k hc
          have e2 : lastVal (fun p : String × Option String =>
              if strLtB p.1 cutoff then some (p.1, p.2) else none) ps k = none :=
            lastVal_filter_neg (fun x => strLtB x cutoff) ps k hc
          rw [e1, e2]
          cases lastVal (fun p : String × Option String =>
            some (p.1, p.2)) ps k <;> rfl
        · have e1 : lastVal (fun p : String × Option String =>
              if strLtB p.1 cutoff then none else some (p.1, p.2)) ps k = none :=
            lastVal_filterNot_neg (fun x => strLtB x cutoff) ps k hc
          have e2 : lastVal (fun p : String × Option String =>
              if strLtB p.1 cutoff then some (p.1, p.2) else none) ps k =
              lastVal (fun p : String × Option String => some (p.1, p.2)) ps k :=
            lastVal_filter_pos (fun x => strLtB x cutoff) ps k hc
          rw [e1, e2]
          cases lastVal (fun p : String × Option String =>
            some (p.1, p.2)) ps k <;> rfl
      have hnd2 : (keysOf m2).Nodup := by
        rw [hm2]
        refine nodup_keysOf_dictFold _ _ _ ?_
        rw [hm1]
        exact nodup_keysOf_dictFold _ _ _ (by simp [keysOf])
      have hndm : (keysOf m).Nodup := by
        rw [hm]
        exact nodup_keysOf_dictFold _ _ _ (by simp [keysOf])
      have hmemk : ∀ k : String, k ∈ keysOf m2 ↔ k ∈ keysOf m := by
        intro k
        rw [mem_keysOf_iff_lookup, mem_keysOf_iff_lookup, hlook k]
      have hmm2 : m2.map (fun b => b.1.data) = (keysOf m2).map String.data := by
        rw [keysOf, List.map_map]
        rfl
      have hmm : m.map (fun b => b.1.data) = (keysOf m).map String.data := by
        rw [keysOf, List.map_map]
        rfl
      have hchar : ∀ kc : List Char,
          kc ∈ m2.map (fun b => b.1.data) ↔ kc ∈ m.map (fun b => b.1.data) := by
        intro kc
        rw [hmm2, hmm]
        constructor
        · intro h
          obtain ⟨s, hs, hsk⟩ := List.mem_map.mp h
          exact List.mem_map.mpr ⟨s, (hmemk s).mp hs, hsk⟩
        · intro h
          obtain ⟨s, hs, hsk⟩ := List.mem_map.mp h
          exact List.mem_map.mpr ⟨s, (hmemk s).mpr hs, hsk⟩
      have hdnodup : ∀ (x : List (String × Option String)),
          (keysOf x).Nodup → (x.map (fun b => b.1.data)).Nodup := by
        intro x hx
        have h0 : x.map (fun b => b.1.data) = (keysOf x).map String.data := by
          rw [keysOf, List.map_map]
          rfl
        rw [h0]
        refine hx.map ?_
        intro a b hab
        cases a; cases b
        exact congrArg String.mk hab
      have hkeys : sortByKey listLtB id (m2.map (fun b => b.1.data)) =
          sortByKey listLtB id (m.map (fun b => b.1.data)) := by
        refine strictSorted_eq_of_mem_iff listLtB
          (fun a b h => listLtB_asymm a b h) _ _ ?_ ?_ ?_
        · exact sortByKey_pairwise_strict listLtB id
            (fun a b h => listLtB_asymm a b h)
            (fun a b c h1 h2 => listLtB_trans a b c h1 h2)
            (fun a b h1 h2 => listLtB_conn a b h1 h2) _
            (by simpa using hdnodup m2 hnd2)
        · exact sortByKey_pairwise_strict listLtB id
            (fun a b h => listLtB_asymm a b h)
            (fun a b c h1 h2 => listLtB_trans a b c h1 h2)
            (fun a b h1 h2 => listLtB_conn a b h1 h2) _
            (by simpa using hdnodup m hndm)
        · intro a
          rw [mem_sortByKey, mem_sortByKey]
          exact hchar a
      rw [hkeys]
      exact mapM_congr _ _ _ (fun k _ => by rw [hlook ⟨k⟩])
  exact ⟨main, fun S => main "2012-06" S⟩

/-- **C6**: normalization idempotence — the normalizer's series-level
stage (deduplicate by date, sort ascending) is a fixed point on every
normalized output: re-normalizing `to_pairs items` returns it
unchanged, and the stage itself is idempotent on every pair series. -/
theorem C6_normalize_idempotent :
    (∀ items : List RawRecord,
      pairsNormalize (to_pairs items) = to_pairs items) ∧
    (∀ pairs : List (String × ℚ),
      pairsNormalize (pairsNormalize pairs) = pairsNormalize pairs) := by
  refine ⟨?_, pairsNormalize_idem⟩
  intro items
  rw [to_pairs_eq_normalize]
  exact pairsNormalize_idem _

/-- **C4**: the factor normalizer — a record with a present, nonempty,
parseable `%d/%m/%Y` date and comma-decimal value maps to the ISO first
day of its month with the value divided by 100 (the ISO date being the
record's month key plus `-01`); a record with a missing date or value,
an empty date or value, or an unparseable date or value is dropped
(mapped to `none`), and dropping it from a list leaves the other
records' output unchanged; `{data: 15/03/2021, valor: 0,50}` maps to
`("2021-03-01", 0.005)`. -/
theorem C4_normalizer :
    (∀ (it : RawRecord) (s vs : String) (d : Date) (v : ℚ),
      it.data = some s → it.valor = some vs → ¬ (s = "" ∨ vs = "") →
      parseDateDMY s = some d → parseValComma vs = some v →
      convertRecord it = some (isoMonthStart d, qDivNat v 100 (by norm_num))) ∧
    (∀ d : Date, (isoMonthStart d).data =
      (month_key_iso d).data ++ ['-', '0', '1']) ∧
    (∀ it : RawRecord, it.data = none → convertRecord it = none) ∧
    (∀ it : RawRecord, it.valor = none → convertRecord it = none) ∧
    (∀ (it : RawRecord) (s vs : String), it.data = some s → it.valor = some vs →
      (s = "" ∨ vs = "" ∨ parseDateDMY s = none ∨ parseValComma vs = none) →
      convertRecord it = none) ∧
    (∀ (l1 l2 : List RawRecord) (it : RawRecord), convertRecord it = none →
      to_pairs (l1 ++ it :: l2) = to_pairs (l1 ++ l2)) ∧
    convertRecord ⟨some "15/03/2021", some "0,50"⟩ =
      some ("2021-03-01", (⟨1, 200, by norm_num, by norm_num⟩ : ℚ)) := by
  refine ⟨?_, ?_, ?_, ?_, ?_, ?_, by decide⟩
  · intro it s vs d v h1 h2 h3 h4 h5
    obtain ⟨da, va⟩ := it
    replace h1 : da = some s := h1
    replace h2 : va = some vs := h2
    subst h1
    subst h2
    show (if s = "" ∨ vs = "" then none
      else match parseDateDMY s, parseValComma vs with
        | some d, some v => some (isoMonthStart d, qDivNat v 100 (by norm_num))
        | _, _ => none) =
      some (isoMonthStart d, qDivNat v 100 (by norm_num))
    rw [if_neg h3, h4, h5]
  · intro d
    show pad4L d.year ++ '-' :: pad2L d.month ++ ['-', '0', '1'] =
      (pad4L d.year ++ '-' :: pad2L d.month) ++ ['-', '0', '1']
    simp
  · intro it h
    obtain ⟨da, va⟩ := it
    replace h : da = none := h
    subst h
    rfl
  · intro it h
    obtain ⟨da, va⟩ := it
    replace h : va = none := h
    subst h
    cases da <;> rfl
  · intro it s vs h1 h2 h3
    obtain ⟨da, va⟩ := it
    replace h1 : da = some s := h1
    replace h2 : va = some vs := h2
    subst h1
    subst h2
    show (if s = "" ∨ vs = "" then none
      else match parseDateDMY s, parseValComma vs with
        | some d, some v => some (isoMonthStart d, qDivNat v 100 (by norm_num))
        | _, _ => none) = none
    by_cases he : s = "" ∨ vs = ""
    · rw [if_pos he]
    · rw [if_neg he]
      rcases h3 with h3 | h3 | h3 | h3
      · exact absurd (Or.inl h3) he
      · exact absurd (Or.inr h3) he
      · rcases hv : parseValComma vs with _ | v0 <;> rw [h3]
      · rcases hd : parseDateDMY s with _ | d0 <;> rw [h3]
  · intro l1 l2 it h
    rw [to_pairs_eq_normalize, to_pairs_eq_normalize,
      List.filterMap_append, List.filterMap_append,
      List.filterMap_cons_none h]

/-- Witness for `C4_normalizer`: its success case applied to the
spec's example record. -/
theorem C4_normalizer_witness :
    ((⟨some "15/03/2021", some "0,50"⟩ : RawRecord).data = some "15/03/2021" ∧
     (⟨some "15/03/2021", some "0,50"⟩ : RawRecord).valor = some "0,50" ∧
     ¬ ("15/03/2021" = "" ∨ "0,50" = "") ∧
     parseDateDMY "15/03/2021" = some ⟨2021, 3, 15⟩ ∧
     parseValComma "0,50" = some (⟨1, 2, by norm_num, by norm_num⟩ : ℚ)) ∧
    convertRecord ⟨some "15/03/2021", some "0,50"⟩ =
      some (isoMonthStart ⟨2021, 3, 15⟩,
        qDivNat (⟨1, 2, by norm_num, by norm_num⟩ : ℚ) 100 (by norm_num)) :=
  ⟨⟨rfl, rfl, by decide, by decide, by decide⟩,
    C4_normalizer.1 ⟨some "15/03/2021", some "0,50"⟩ "15/03/2021" "0,50"
      ⟨2021, 3, 15⟩ (⟨1, 2, by norm_num, by norm_num⟩ : ℚ) rfl rfl (by decide)
      (by decide) (by decide)⟩

/-- **C1**: the non-regression check in `month` mode with the default
configuration (changed-values sub-mode off) passes exactly when every
month key of the old series appears among the month keys of the new
series — independently of the values — and the reported lost keys are
exactly the month keys present in the old series but absent from the
new one, listed strictly ascending without duplicates. -/
theorem C1_non_regression_month :
    (∀ old new : List (String × ℚ),
      (non_regression false old new "month" = true ↔
        ∀ p ∈ old, ∃ q ∈ new, month_key q.1 = month_key p.1)) ∧
    (∀ (old new : List (String × ℚ)) (k : String),
      k ∈ nrLost old new "month" ↔
        ((∃ p ∈ old, month_key p.1 = k) ∧ ¬ ∃ q ∈ new, month_key q.1 = k)) ∧
    (∀ old new : List (String × ℚ),
      List.Pairwise (fun a b => strLtB a b = true) (nrLost old new "month")) ∧
    (∀ (old new : List (String × ℚ)) (f : ℚ → ℚ),
      non_regression false (old.map (fun p => (p.1, f p.2)))
        (new.map (fun p => (p.1, f p.2))) "month" =
      non_regression false old new "month") := by
  have hpkm : ∀ l : List (String × ℚ),
      periodKeys l "month" = l.map (fun p => month_key p.1) := by
    intro l
    rw [periodKeys, if_pos rfl]
  have hlost : ∀ (old new : List (String × ℚ)), nrLost old new "month" =
      sortByKey strLtB id (((periodKeys old "month").filter
        (fun k => ¬ k ∈ periodKeys new "month")).dedup) := fun _ _ => rfl
  have hmem : ∀ (old new : List (String × ℚ)) (k : String),
      k ∈ nrLost old new "month" ↔
        ((∃ p ∈ old, month_key p.1 = k) ∧ ¬ ∃ q ∈ new, month_key q.1 = k) := by
    intro old new k
    rw [hlost, mem_sortByKey, List.mem_dedup, List.mem_filter, hpkm, hpkm,
      List.mem_map, decide_eq_true_eq]
    constructor
    · rintro ⟨⟨p, hp, hpk⟩, hnk⟩
      refine ⟨⟨p, hp, hpk⟩, ?_⟩
      rintro ⟨q, hq, hqk⟩
      exact hnk (List.mem_map.mpr ⟨q, hq, hqk⟩)
    · rintro ⟨⟨p, hp, hpk⟩, hnk⟩
      refine ⟨⟨p, hp, hpk⟩, ?_⟩
      intro hk
      obtain ⟨q, hq, hqk⟩ := List.mem_map.mp hk
      exact hnk ⟨q, hq, hqk⟩
  have hnr : ∀ old new : List (String × ℚ),
      (non_regression false old new "month" = true ↔
        nrLost old new "month" = []) := by
    intro old new
    rw [non_regression]
    by_cases hl : nrLost old new "month" = []
    · rw [if_neg (by simp [hl]), if_neg Bool.false_ne_true]
      simp [hl]
    · rw [if_pos (by simp [hl])]
      simp [hl]
  refine ⟨?_, hmem, ?_, ?_⟩
  · intro old new
    rw [hnr, List.eq_nil_iff_forall_not_mem]
    constructor
    · intro h p hp
      by_contra hno
      refine h (month_key p.1) ((hmem old new (month_key p.1)).mpr
        ⟨⟨p, hp, rfl⟩, ?_⟩)
      intro hq
      exact hno hq
    · intro h k hk
      obtain ⟨⟨p, hp, hpk⟩, hnk⟩ := (hmem old new k).mp hk
      subst hpk
      exact hnk (h p hp)
  · intro old new
    rw [hlost]
    exact sortByKey_pairwise_strict strLtB id
      (fun a b h => strLtB_asymm h)
      (fun a b c h1 h2 => strLtB_trans h1 h2)
      (fun a b h1 h2 => strLtB_conn h1 h2) _
      (by simpa using List.nodup_dedup _)
  · intro old new f
    have hpk2 : ∀ l : List (String × ℚ),
        periodKeys (l.map (fun p => (p.1, f p.2))) "month" =
        periodKeys l "month" := by
      intro l
      rw [hpkm, hpkm, List.map_map]
      rfl
    have hle : nrLost (old.map (fun p => (p.1, f p.2)))
        (new.map (fun p => (p.1, f p.2))) "month" =
        nrLost old new "month" := by
      rw [hlost, hlost, hpk2, hpk2]
    simp only [non_regression, hle]
    rw [if_neg Bool.false_ne_true, if_neg Bool.false_ne_true]

/-- Witness for `C1_non_regression_month`: a one-record old series
whose month appears (on a different day) in the new series passes. -/
theorem C1_non_regression_month_witness :
    non_regression false [("2020-01-15", (1 : ℚ))] [("2020-01-20", (2 : ℚ))]
      "month" = true :=
  (C1_non_regression_month.1 _ _).mpr (by decide)

/-- **C3**: the series merger keeps, for each month, exactly one
record — months strictly before the cutover `2012-06` carry the value
of the last old-series record of that month, months at or after it the
value of the last new-series record — every output date is the first
day of its month (`01/MM/YYYY`), and the output months are strictly
ascending; in particular an old `2012-05` entry and a new `2012-06`
entry both appear, sourced from old and new respectively. -/
theorem C3_merger (itemsOld itemsNew : List RawRecord)
    (hOld : ∀ it ∈ itemsOld, ∃ s dd, it.data = some s ∧ parseDateDMY s = some dd)
    (hNew : ∀ it ∈ itemsNew, ∃ s dd, it.data = some s ∧ parseDateDMY s = some dd) :
    (∃ out, merge_poup_series itemsOld itemsNew = some out ∧
      List.Pairwise (fun a b => strLtB a b = true) (out.filterMap recMonthKey) ∧
      (∀ r ∈ out, ∃ it s dd0, (it ∈ itemsOld ∨ it ∈ itemsNew) ∧
        it.data = some s ∧ parseDateDMY s = some dd0 ∧
        recDate r = some ⟨dd0.year, dd0.month, 1⟩ ∧
        recMonthKey r = some (month_key_iso dd0) ∧
        r.data = some ⟨'0' :: '1' :: '/' ::
          (pad2L dd0.month ++ '/' :: pad4L dd0.year)⟩) ∧
      (∀ mk v, (∃ r ∈ out, recMonthKey r = some mk ∧ r.valor = v) ↔
        ((strLtB mk "2012-06" = true ∧ lastMonthVal itemsOld mk = some v) ∨
         (strLtB mk "2012-06" = false ∧ lastMonthVal itemsNew mk = some v)))) ∧
    merge_poup_series [⟨some "05/05/2012", some "0,50"⟩]
        [⟨some "15/06/2012", some "0,62"⟩] =
      some [⟨some "01/05/2012", some "0,50"⟩, ⟨some "01/06/2012", some "0,62"⟩] :=
  ⟨mergePoupAux_chars "2012-06" itemsOld itemsNew hOld hNew, by decide⟩

/-- Witness for `C3_merger`: the spec's cutover example, with every
hypothesis discharged on the two one-record series. -/
theorem C3_merger_witness :
    ∃ out, merge_poup_series [(⟨some "05/05/2012", some "0,50"⟩ : RawRecord)]
        [(⟨some "15/06/2012", some "0,62"⟩ : RawRecord)] = some out ∧
      List.Pairwise (fun a b => strLtB a b = true)
        (out.filterMap recMonthKey) := by
  obtain ⟨out, h1, h2, _⟩ := (C3_merger
    [(⟨some "05/05/2012", some "0,50"⟩ : RawRecord)]
    [(⟨some "15/06/2012", some "0,62"⟩ : RawRecord)]
    (fun it hit => by
      rw [List.mem_singleton] at hit
      subst hit
      exact ⟨"05/05/2012", ⟨2012, 5, 5⟩, rfl, by decide⟩)
    (fun it hit => by
      rw [List.mem_singleton] at hit
      subst hit
      exact ⟨"15/06/2012", ⟨2012, 6, 15⟩, rfl, by decide⟩)).1
  exact ⟨out, h1, h2⟩

/-- **C7**: the fetcher deduplicates by date string with the later
occurrence authoritative and sorts ascending by parsed date: a
successful `fetch_sgs_series` output is date-sorted, every record's
date parses, and `{data: s, valor: v}` is in the output exactly when
`s` is truthy and `v` is the last value reported for `s` across the
concatenated chunks; the range fetcher's dedup-and-sort tail likewise
returns a date-sorted list of last-wins records; the spec's two-chunk
example yields exactly the later chunk's record. -/
theorem C7_fetch_dedup_sort :
    (∀ (chunks : List (Option (List RawRecord))) (out : List RawRecord),
      fetch_sgs_series chunks = some out →
      List.Pairwise (fun a b => recDateKey a ≤ recDateKey b) out ∧
      (∀ r ∈ out, (recDate r).isSome = true) ∧
      (∀ s v, (⟨some s, v⟩ : RawRecord) ∈ out ↔
        (¬ s = "" ∧
          lastDataVal ((chunks.filterMap id).flatten) (some s) = some v))) ∧
    (∀ (allItems out : List RawRecord), fetchRangeTail allItems = some out →
      List.Pairwise (fun a b => recDateKey a ≤ recDateKey b) out ∧
      (∀ r ∈ out, ∃ it ∈ allItems, ∃ s, truthyData it = some s ∧
        r = ⟨some s, it.valor⟩)) ∧
    fetch_sgs_series [some [⟨some "01/01/2020", some "1,50"⟩],
        some [⟨some "01/01/2020", some "1,60"⟩]] =
      some [⟨some "01/01/2020", some "1,60"⟩] := by
  refine ⟨fetch_sgs_series_chars, ?_, by decide⟩
  intro allItems out h
  obtain ⟨h1, _, h3⟩ := fetchRangeTail_chars allItems out h
  exact ⟨h1, h3⟩

/-- Witness for `C7_fetch_dedup_sort`: the dedup example's output is
date-sorted. -/
theorem C7_fetch_dedup_sort_witness :
    List.Pairwise (fun a b => recDateKey a ≤ recDateKey b)
      [(⟨some "01/01/2020", some "1,60"⟩ : RawRecord)] :=
  (C7_fetch_dedup_sort.1 [some [⟨some "01/01/2020", some "1,50"⟩],
    some [⟨some "01/01/2020", some "1,60"⟩]]
    [⟨some "01/01/2020", some "1,60"⟩] (by decide)).1

/-- Counterexample to **C8** as stated: reading the persisted file is
listed among the series-producing operations, but `read_js_pairs` does
not deduplicate — a file text containing the same date twice reads
back as a series with a duplicated (hence not strictly ascending, not
unique) date. -/
theorem C8_series_invariant_cex :
    ∃ pairs, read_js_pairs (some ("\x7b date: \x272020-01-01\x27, factor: 1.5 \x7d,\n\x7b date: \x272020-01-01\x27, factor: 1.5 \x7d,")) = some pairs ∧
      ¬ List.Pairwise (fun a b => strLtB a.1 b.1 = true) pairs ∧
      ¬ (pairs.map Prod.fst).Nodup := by
  refine ⟨[("2020-01-01", ⟨3, 2, by norm_num, by norm_num⟩),
    ("2020-01-01", ⟨3, 2, by norm_num, by norm_num⟩)], by decide, ?_, by decide⟩
  intro h
  have h2 := (List.pairwise_cons.mp h).1
    ("2020-01-01", (⟨3, 2, by norm_num, by norm_num⟩ : ℚ)) (by simp)
  exact absurd h2 (by decide)

/-- **C8**, amended: the normalizer, the daily-to-monthly aggregator
and the merger-followed-by-normalization all yield series with unique,
strictly ascending dates; reading the persisted file yields a series
sorted non-strictly by date, which is strictly ascending exactly when
the matched dates are duplicate-free. -/
theorem C8_series_invariant_amended :
    (∀ items : List RawRecord,
      List.Pairwise (fun a b => strLtB a.1 b.1 = true) (to_pairs items) ∧
      ((to_pairs items).map Prod.fst).Nodup) ∧
    (∀ (fd : ℚ → ℚ) (items : List RawRecord),
      List.Pairwise (fun a b => strLtB a.1 b.1 = true)
        (fetch_selic1178_monthly_pairs fd items)) ∧
    (∀ (itemsOld itemsNew out : List RawRecord),
      merge_poup_series itemsOld itemsNew = some out →
      List.Pairwise (fun a b => strLtB a.1 b.1 = true) (to_pairs out) ∧
      ((to_pairs out).map Prod.fst).Nodup) ∧
    (∀ (c : Option String) (pairs : List (String × ℚ)),
      read_js_pairs c = some pairs →
      List.Pairwise (fun a b => strLtB b.1 a.1 = false) pairs ∧
      ((pairs.map Prod.fst).Nodup →
        List.Pairwise (fun a b => strLtB a.1 b.1 = true) pairs)) := by
  have hpairs : ∀ items : List RawRecord,
      List.Pairwise (fun a b => strLtB a.1 b.1 = true) (to_pairs items) ∧
      ((to_pairs items).map Prod.fst).Nodup := by
    intro items
    rw [to_pairs_eq_normalize]
    exact ⟨pairsNormalize_strict _, pairsNormalize_nodup_keys _⟩
  exact ⟨hpairs, fetch_selic1178_strict,
    fun _ _ out _ => hpairs out, read_js_pairs_sorted⟩

/-- Witness for `C8_series_invariant_amended`: the merger conjunct on
the two one-record series, and the read conjunct on a two-record
file. -/
theorem C8_series_invariant_amended_witness :
    (List.Pairwise (fun a b : String × ℚ => strLtB a.1 b.1 = true)
      (to_pairs [⟨some "01/05/2012", some "0,50"⟩,
        ⟨some "01/06/2012", some "0,62"⟩]) ∧
     ((to_pairs [(⟨some "01/05/2012", some "0,50"⟩ : RawRecord),
        ⟨some "01/06/2012", some "0,62"⟩]).map Prod.fst).Nodup) ∧
    List.Pairwise (fun a b : String × ℚ => strLtB b.1 a.1 = false)
      [("2020-01-01", (⟨5, 2, by norm_num, by norm_num⟩ : ℚ)),
       ("2020-02-01", (⟨3, 2, by norm_num, by norm_num⟩ : ℚ))] :=
  ⟨C8_series_invariant_amended.2.2.1 [⟨some "05/05/2012", some "0,50"⟩]
      [⟨some "15/06/2012", some "0,62"⟩]
      [⟨some "01/05/2012", some "0,50"⟩, ⟨some "01/06/2012", some "0,62"⟩]
      (by decide),
   (C8_series_invariant_amended.2.2.2
      (some ("\x7b date: \x272020-02-01\x27, factor: 1.5 \x7d,\n\x7b date: \x272020-01-01\x27, factor: 2.5 \x7d,"))
      [("2020-01-01", ⟨5, 2, by norm_num, by norm_num⟩),
       ("2020-02-01", ⟨3, 2, by norm_num, by norm_num⟩)] (by decide)).1⟩

/-- Counterexample to **C9** as stated: reading the persisted file CAN
raise a parse error — the factor group `[0-9.]+` admits non-float
texts such as `1..2`, on which `float()` raises an uncaught
`ValueError` (modelled as `none`), rather than treating the file as
having zero entries. -/
theorem C9_fresh_start_cex :
    read_js_pairs
      (some "\x7b date: \x272020-01-01\x27, factor: 1..2 \x7d") = none := by
  decide

/-- **C9**, amended: the scanner extracts exactly the `finditer`
matches of the literal pattern; a missing file yields an empty series;
the read raises (returns `none`) exactly when some matched factor text
is not a float literal, and otherwise returns the matched pairs
(sorted); and with an empty old series the pipeline skips the
non-regression gate and proceeds to overwrite the target. -/
theorem C9_fresh_start_amended :
    (∀ cs : List Char, ScanSpec cs (scan cs)) ∧
    read_js_pairs none = some [] ∧
    (∀ c : String, read_js_pairs (some c) = none ↔
      ∃ p ∈ scan c.data, parseFloat p.2 = none) ∧
    (∀ c : String, (∀ p ∈ scan c.data, (parseFloat p.2).isSome = true) →
      ∃ pairs, read_js_pairs (some c) = some pairs ∧
        pairs.Perm ((scan c.data).map
          (fun p => (p.1, (parseFloat p.2).getD 0)))) ∧
    (∀ (constName : String) (pairsNew : List (String × ℚ)) (fs : FsState)
        (o : RunOracle) (nrMode : String) (nrFlag : Bool),
      read_js_pairs fs = some [] → o.serializeOk = true → o.writeOk = true →
      pipelineTail constName pairsNew fs o nrMode nrFlag =
        some (0, some (serialize_js constName pairsNew))) := by
  refine ⟨scan_spec, rfl, ?_, ?_, ?_⟩
  · intro c
    show (if ((scan c.data).all (fun p => (parseFloat p.2).isSome)) = true
      then some (sortByKey strLtB Prod.fst
        ((scan c.data).map (fun p => (p.1, (parseFloat p.2).getD 0))))
      else none) = none ↔ _
    by_cases hg : ((scan c.data).all (fun p => (parseFloat p.2).isSome)) = true
    · rw [if_pos hg]
      constructor
      · intro h
        cases h
      · rintro ⟨p, hp, hpf⟩
        have := List.all_eq_true.mp hg p hp
        rw [hpf] at this
        cases this
    · rw [if_neg hg]
      constructor
      · intro _
        by_contra hno
        refine hg (List.all_eq_true.mpr ?_)
        intro p hp
        rcases hpf : parseFloat p.2 with _ | v
        · exact absurd ⟨p, hp, hpf⟩ hno
        · rfl
      · intro _
        rfl
  · intro c hall
    refine ⟨sortByKey strLtB Prod.fst
      ((scan c.data).map (fun p => (p.1, (parseFloat p.2).getD 0))), ?_, ?_⟩
    · show (if ((scan c.data).all (fun p => (parseFloat p.2).isSome)) = true
        then some (sortByKey strLtB Prod.fst
          ((scan c.data).map (fun p => (p.1, (parseFloat p.2).getD 0))))
        else none) = _
      rw [if_pos (List.all_eq_true.mpr hall)]
    · exact sortByKey_perm strLtB Prod.fst _
  · intro constName pairsNew fs o nrMode nrFlag hrd hser hwr
    simp only [pipelineTail, hrd]
    rw [if_neg (fun hc => hc.1 rfl)]
    rw [if_neg (by rw [hser]; exact fun hc => Bool.noConfusion hc)]
    rw [if_neg (by rw [hwr]; exact fun hc => Bool.noConfusion hc)]

/-- Witness for `C9_fresh_start_amended`: on a missing target file the
pipeline overwrites and returns code 0. -/
theorem C9_fresh_start_amended_witness :
    pipelineTail "selicFactors" [("2020-01-01", (1 : ℚ))] none
      ⟨true, true, true, true, none⟩ "month" false =
      some (0, some (serialize_js "selicFactors" [("2020-01-01", (1 : ℚ))])) :=
  C9_fresh_start_amended.2.2.2.2 "selicFactors" [("2020-01-01", (1 : ℚ))] none
    ⟨true, true, true, true, none⟩ "month" false rfl rfl rfl

/-- Any failing exit of the shared pipeline tail (given a successful
restore) leaves the target file content unchanged, with a stage code
in 3..5. -/
theorem pipelineTail_preserves (constName : String)
    (pairsNew : List (String × ℚ)) (fs : FsState) (o : RunOracle)
    (nrMode : String) (nrFlag : Bool) (code : ℤ) (fs2 : FsState)
    (hro : o.restoreOk = true)
    (h : pipelineTail constName pairsNew fs o nrMode nrFlag = some (code, fs2))
    (hc : ¬ code = 0) : fs2 = fs ∧ (code = 3 ∨ code = 4 ∨ code = 5) := by
  rcases hrd : read_js_pairs fs with _ | pairsOld
  · simp only [pipelineTail, hrd] at h
    exact Option.noConfusion h
  · simp only [pipelineTail, hrd] at h
    by_cases h3 : pairsOld ≠ [] ∧
        non_regression nrFlag pairsOld pairsNew nrMode = false
    · rw [if_pos h3] at h
      injection h with h
      injection h with h1 h2
      exact ⟨h2.symm, Or.inl h1.symm⟩
    · rw [if_neg h3] at h
      by_cases h4 : o.serializeOk = false
      · rw [if_pos h4] at h
        injection h with h
        injection h with h1 h2
        exact ⟨h2.symm, Or.inr (Or.inl h1.symm)⟩
      · rw [if_neg h4] at h
        by_cases h5 : o.writeOk = false
        · rw [if_pos h5] at h
          by_cases hb : o.backupOk = true
          · rw [if_pos hb] at h
            rcases fs with _ | c
            · replace h : some ((5 : ℤ), (none : FsState)) =
                some (code, fs2) := h
              injection h with h
              injection h with h1 h2
              exact ⟨h2.symm, Or.inr (Or.inr h1.symm)⟩
            · replace h : (if o.restoreOk = true
                  then some ((5 : ℤ), (some c : FsState))
                  else some (5, o.corrupted)) = some (code, fs2) := h
              rw [if_pos hro] at h
              injection h with h
              injection h with h1 h2
              exact ⟨h2.symm, Or.inr (Or.inr h1.symm)⟩
          · rw [if_neg hb] at h
            replace h : some ((5 : ℤ), fs) = some (code, fs2) := h
            injection h with h
            injection h with h1 h2
            exact ⟨h2.symm, Or.inr (Or.inr h1.symm)⟩
        · rw [if_neg h5] at h
          injection h with h
          injection h with h1 h2
          exact absurd h1.symm hc

/-- Stage-by-stage exit equations of the shared pipeline tail. -/
theorem pipelineTail_cases (constName : String)
    (pairsNew : List (String × ℚ)) (fs : FsState) (o : RunOracle)
    (nrMode : String) (nrFlag : Bool) (pairsOld : List (String × ℚ))
    (hrd : read_js_pairs fs = some pairsOld) :
    (¬ pairsOld = [] → non_regression nrFlag pairsOld pairsNew nrMode = false →
      pipelineTail constName pairsNew fs o nrMode nrFlag = some (3, fs)) ∧
    ((pairsOld = [] ∨ non_regression nrFlag pairsOld pairsNew nrMode = true) →
      o.serializeOk = false →
      pipelineTail constName pairsNew fs o nrMode nrFlag = some (4, fs)) ∧
    ((pairsOld = [] ∨ non_regression nrFlag pairsOld pairsNew nrMode = true) →
      o.serializeOk = true → o.writeOk = false → o.restoreOk = true →
      pipelineTail constName pairsNew fs o nrMode nrFlag = some (5, fs)) ∧
    ((pairsOld = [] ∨ non_regression nrFlag pairsOld pairsNew nrMode = true) →
      o.serializeOk = true → o.writeOk = true →
      pipelineTail constName pairsNew fs o nrMode nrFlag =
        some (0, some (serialize_js constName pairsNew))) := by
  have hng : (pairsOld = [] ∨
      non_regression nrFlag pairsOld pairsNew nrMode = true) →
      ¬ (pairsOld ≠ [] ∧
        non_regression nrFlag pairsOld pairsNew nrMode = false) := by
    rintro (hg | hg) ⟨hne, hnr⟩
    · exact hne hg
    · rw [hg] at hnr
      exact Bool.noConfusion hnr
  refine ⟨?_, ?_, ?_, ?_⟩
  · intro hne hnr
    simp only [pipelineTail, hrd]
    rw [if_pos ⟨hne, hnr⟩]
  · intro hg hser
    simp only [pipelineTail, hrd]
    rw [if_neg (hng hg), if_pos hser]
  · intro hg hser hwr hro
    simp only [pipelineTail, hrd]
    rw [if_neg (hng hg)]
    rw [if_neg (by rw [hser]; exact fun hx => Bool.noConfusion hx)]
    rw [if_pos hwr]
    by_cases hb : o.backupOk = true
    · rw [if_pos hb]
      rcases fs with _ | c
      · rfl
      · show (if o.restoreOk = true then some ((5 : ℤ), (some c : FsState))
          else some (5, o.corrupted)) = some (5, some c)
        rw [if_pos hro]
    · rw [if_neg hb]
  · intro hg hser hwr
    simp only [pipelineTail, hrd]
    rw [if_neg (hng hg)]
    rw [if_neg (by rw [hser]; exact fun hx => Bool.noConfusion hx)]
    rw [if_neg (by rw [hwr]; exact fun hx => Bool.noConfusion hx)]

/-- **C2**: every failing run of `update_selic` or `update_poupanca`
(when a needed restore succeeds) leaves the persisted target content
exactly as before the run and returns a nonzero code in 1..5; the code
identifies the failure stage — 1 empty fetch, 2 empty normalization,
3 non-regression failure, 4 serialization failure, 5 write failure
(with the backup restored) — as the stage equations for
`update_poupanca` show. -/
theorem C2_failure_preserves_target :
    (∀ (source : String) (pairs1178 : List (String × ℚ))
        (items4390 : List RawRecord) (fs : FsState) (o : RunOracle)
        (nrMode : String) (nrFlag : Bool) (code : ℤ) (fs2 : FsState),
      o.restoreOk = true →
      update_selic source pairs1178 items4390 fs o nrMode nrFlag =
        some (code, fs2) →
      ¬ code = 0 → fs2 = fs ∧
        (code = 1 ∨ code = 2 ∨ code = 3 ∨ code = 4 ∨ code = 5)) ∧
    (∀ (items : List RawRecord) (fs : FsState) (o : RunOracle)
        (nrMode : String) (nrFlag : Bool) (code : ℤ) (fs2 : FsState),
      o.restoreOk = true →
      update_poupanca items fs o nrMode nrFlag = some (code, fs2) →
      ¬ code = 0 → fs2 = fs ∧
        (code = 1 ∨ code = 2 ∨ code = 3 ∨ code = 4 ∨ code = 5)) ∧
    (∀ (items : List RawRecord) (fs : FsState) (o : RunOracle)
        (nrMode : String) (nrFlag : Bool),
      items = [] → update_poupanca items fs o nrMode nrFlag = some (1, fs)) ∧
    (∀ (items : List RawRecord) (fs : FsState) (o : RunOracle)
        (nrMode : String) (nrFlag : Bool),
      ¬ items = [] → to_pairs items = [] →
      update_poupanca items fs o nrMode nrFlag = some (2, fs)) ∧
    (∀ (items : List RawRecord) (fs : FsState) (o : RunOracle)
        (nrMode : String) (nrFlag : Bool) (pairsOld : List (String × ℚ)),
      ¬ items = [] → ¬ to_pairs items = [] →
      read_js_pairs fs = some pairsOld → ¬ pairsOld = [] →
      non_regression nrFlag pairsOld (to_pairs items) nrMode = false →
      update_poupanca items fs o nrMode nrFlag = some (3, fs)) ∧
    (∀ (items : List RawRecord) (fs : FsState) (o : RunOracle)
        (nrMode : String) (nrFlag : Bool) (pairsOld : List (String × ℚ)),
      ¬ items = [] → ¬ to_pairs items = [] →
      read_js_pairs fs = some pairsOld →
      (pairsOld = [] ∨
        non_regression nrFlag pairsOld (to_pairs items) nrMode = true) →
      o.serializeOk = false →
      update_poupanca items fs o nrMode nrFlag = some (4, fs)) ∧
    (∀ (items : List RawRecord) (fs : FsState) (o : RunOracle)
        (nrMode : String) (nrFlag : Bool) (pairsOld : List (String × ℚ)),
      ¬ items = [] → ¬ to_pairs items = [] →
      read_js_pairs fs = some pairsOld →
      (pairsOld = [] ∨
        non_regression nrFlag pairsOld (to_pairs items) nrMode = true) →
      o.serializeOk = true → o.writeOk = false → o.restoreOk = true →
      update_poupanca items fs o nrMode nrFlag = some (5, fs)) := by
  refine ⟨?_, ?_, ?_, ?_, ?_, ?_, ?_⟩
  · intro source pairs1178 items4390 fs o nrMode nrFlag code fs2 hro h hc
    simp only [update_selic] at h
    by_cases hsrc : source = "1178"
    · rw [if_pos hsrc] at h
      by_cases h1 : pairs1178 = []
      · rw [if_pos h1] at h
        injection h with h
        injection h with ha hb
        exact ⟨hb.symm, Or.inl ha.symm⟩
      · rw [if_neg h1, if_neg h1] at h
        obtain ⟨hfs, hcode⟩ :=
          pipelineTail_preserves _ _ _ _ _ _ _ _ hro h hc
        exact ⟨hfs, Or.inr (Or.inr hcode)⟩
    · rw [if_neg hsrc] at h
      by_cases h1 : items4390 = []
      · rw [if_pos h1] at h
        injection h with h
        injection h with ha hb
        exact ⟨hb.symm, Or.inl ha.symm⟩
      · rw [if_neg h1] at h
        by_cases h2 : to_pairs items4390 = []
        · rw [if_pos h2] at h
          injection h with h
          injection h with ha hb
          exact ⟨hb.symm, Or.inr (Or.inl ha.symm)⟩
        · rw [if_neg h2] at h
          obtain ⟨hfs, hcode⟩ :=
            pipelineTail_preserves _ _ _ _ _ _ _ _ hro h hc
          exact ⟨hfs, Or.inr (Or.inr hcode)⟩
  · intro items fs o nrMode nrFlag code fs2 hro h hc
    simp only [update_poupanca] at h
    by_cases h1 : items = []
    · rw [if_pos h1] at h
      injection h with h
      injection h with ha hb
      exact ⟨hb.symm, Or.inl ha.symm⟩
    · rw [if_neg h1] at h
      by_cases h2 : to_pairs items = []
      · rw [if_pos h2] at h
        injection h with h
        injection h with ha hb
        exact ⟨hb.symm, Or.inr (Or.inl ha.symm)⟩
      · rw [if_neg h2] at h
        obtain ⟨hfs, hcode⟩ :=
          pipelineTail_preserves _ _ _ _ _ _ _ _ hro h hc
        exact ⟨hfs, Or.inr (Or.inr hcode)⟩
  · intro items fs o nrMode nrFlag h1
    simp only [update_poupanca]
    rw [if_pos h1]
  · intro items fs o nrMode nrFlag h1 h2
    simp only [update_poupanca]
    rw [if_neg h1, if_pos h2]
  · intro items fs o nrMode nrFlag pairsOld h1 h2 hrd hpo hnr
    simp only [update_poupanca]
    rw [if_neg h1, if_neg h2]
    exact (pipelineTail_cases _ _ _ _ _ _ _ hrd).1 hpo hnr
  · intro items fs o nrMode nrFlag pairsOld h1 h2 hrd hg hser
    simp only [update_poupanca]
    rw [if_neg h1, if_neg h2]
    exact (pipelineTail_cases _ _ _ _ _ _ _ hrd).2.1 hg hser
  · intro items fs o nrMode nrFlag pairsOld h1 h2 hrd hg hser hwr hro
    simp only [update_poupanca]
    rw [if_neg h1, if_neg h2]
    exact (pipelineTail_cases _ _ _ _ _ _ _ hrd).2.2.1 hg hser hwr hro

/-- Witness for `C2_failure_preserves_target`: a write-failure run of
`update_poupanca` over a one-record candidate restores the prior file
content `"old"` and exits with code 5. -/
theorem C2_failure_preserves_target_witness :
    (some "old" : FsState) = (some "old" : FsState) ∧
      ((5 : ℤ) = 1 ∨ (5 : ℤ) = 2 ∨ (5 : ℤ) = 3 ∨ (5 : ℤ) = 4 ∨ (5 : ℤ) = 5) :=
  C2_failure_preserves_target.2.1 [⟨some "05/05/2012", some "0,50"⟩]
    (some "old") ⟨true, true, false, true, none⟩ "month" false 5 (some "old")
    rfl (by decide) (by decide)

/-- A truthy `data` field is the `data` field. -/
theorem truthyData_eq_some {it : RawRecord} {s : String}
    (h : truthyData it = some s) : it.data = some s ∧ ¬ s = "" := by
  rcases it with ⟨da, va⟩
  rcases da with _ | u
  · cases h
  · replace h : (if u = "" then none else some u) = some s := h
    by_cases hu : u = ""
    · rw [if_pos hu] at h
      cases h
    · rw [if_neg hu] at h
      injection h with h
      subst h
      exact ⟨rfl, hu⟩

/-- If every chunk response contains only records dated inside its
requested window, and every window ends no later than `hi`, then every
record of the assembled range-fetch output is dated no later than
`hi`. -/
theorem fetchRangeTail_date_bound
    (resp : String → Date → Date → Option (List RawRecord)) (serie : String)
    (ws : List (Date × Date)) (hi : Date) (out : List RawRecord)
    (hresp : ∀ a b js, resp serie a b = some js →
      ∀ r ∈ js, ∃ s d, r.data = some s ∧ parseDateDMY s = some d ∧
        dateLe a d ∧ dateLe d b)
    (hwins : ∀ w ∈ ws, dateLe w.2 hi)
    (h : fetchRangeTail (ws.foldl (fun acc w =>
      match resp serie w.1 w.2 with
      | some js => acc ++ js
      | none => acc) []) = some out) :
    ∀ r ∈ out, ∃ s d, r.data = some s ∧ parseDateDMY s = some d ∧
      dateLe d hi := by
  intro r hr
  obtain ⟨_, _, horig⟩ := fetchRangeTail_chars _ _ h
  obtain ⟨it, hit, s, hts, hrs⟩ := horig r hr
  rcases mem_foldl_resp resp serie ws [] it hit with hm | ⟨w, hw, js, hjs, hij⟩
  · cases hm
  · obtain ⟨s2, d, hdat, hpar, _, hdb⟩ := hresp w.1 w.2 js hjs it hij
    obtain ⟨hdat2, _⟩ := truthyData_eq_some hts
    rw [hdat2] at hdat
    injection hdat with hdat
    subst hdat
    refine ⟨s, d, ?_, hpar, ?_⟩
    · rw [hrs]
    · exact Nat.le_trans hdb (hwins w hw)

/-- **C10**: the poupança pipeline requests the new sub-series only
for the fixed window `01/06/2012 .. 25/09/2025` (and only when
`start_year ≤ 2012`, else it fetches nothing and the merge is empty),
each chunk window stays inside the requested ranges, and — assuming
every chunk response holds only records dated inside its requested
window — every record of the merged candidate series falls in a month
no later than `2025-09`. -/
theorem C10_upper_fetch_bound
    (resp : String → Date → Date → Option (List RawRecord)) (startYear : ℤ)
    (hresp : ∀ serie a b js, resp serie a b = some js →
      ∀ r ∈ js, ∃ s d, r.data = some s ∧ parseDateDMY s = some d ∧
        dateLe a d ∧ dateLe d b) :
    (∀ out, updatePoupancaItems resp startYear = some out →
      ∀ r ∈ out, ∃ d0 : Date, recDate r = some d0 ∧
        (d0.year < 2025 ∨ (d0.year = 2025 ∧ d0.month ≤ 9))) ∧
    (2012 < startYear → updatePoupancaItems resp startYear = some []) ∧
    (∀ w ∈ chunkWindows ⟨2012, 6, 1⟩ ⟨2025, 9, 25⟩ 2,
      dateLe ⟨2012, 6, 1⟩ w.1 ∧ dateLe w.2 ⟨2025, 9, 25⟩) ∧
    (∀ w ∈ chunkWindows ⟨1991, 1, 1⟩ ⟨2012, 5, 10⟩ 2,
      dateLe ⟨1991, 1, 1⟩ w.1 ∧ dateLe w.2 ⟨2012, 5, 10⟩) := by
  have hempty : ¬ startYear ≤ 2012 →
      updatePoupancaItems resp startYear = some [] := by
    intro hn
    simp only [updatePoupancaItems, if_neg hn, Option.pure_def,
      Option.bind_eq_bind, Option.some_bind]
    decide
  refine ⟨?_, fun hgt => hempty (by omega), by decide, by decide⟩
  intro out hout r hr
  by_cases hsy : startYear ≤ 2012
  · simp only [updatePoupancaItems, if_pos hsy, Option.bind_eq_bind] at hout
    rcases h196 : fetch_sgs_series_range resp "196" "01/06/2012" "25/09/2025" 2
      with _ | itemsNew
    · rw [h196, Option.none_bind] at hout
      exact Option.noConfusion hout
    rw [h196, Option.some_bind] at hout
    rcases h78 : fetch_sgs_series_range resp "7828" "01/01/1991" "10/05/2012" 2
      with _ | itemsOld
    · rw [h78, Option.none_bind] at hout
      exact Option.noConfusion hout
    rw [h78, Option.some_bind] at hout
    replace h196 : fetchRangeTail
        ((chunkWindows ⟨2012, 6, 1⟩ ⟨2025, 9, 25⟩ 2).foldl (fun acc w =>
          match resp "196" w.1 w.2 with
          | some js => acc ++ js
          | none => acc) []) = some itemsNew := h196
    replace h78 : fetchRangeTail
        ((chunkWindows ⟨1991, 1, 1⟩ ⟨2012, 5, 10⟩ 2).foldl (fun acc w =>
          match resp "7828" w.1 w.2 with
          | some js => acc ++ js
          | none => acc) []) = some itemsOld := h78
    have hNewB := fetchRangeTail_date_bound resp "196" _ ⟨2025, 9, 25⟩
      itemsNew (fun a b js hj => hresp "196" a b js hj)
      (fun w hw => ((by decide : ∀ w ∈ chunkWindows ⟨2012, 6, 1⟩
        ⟨2025, 9, 25⟩ 2, dateLe ⟨2012, 6, 1⟩ w.1 ∧
        dateLe w.2 ⟨2025, 9, 25⟩) w hw).2) h196
    have hOldB := fetchRangeTail_date_bound resp "7828" _ ⟨2012, 5, 10⟩
      itemsOld (fun a b js hj => hresp "7828" a b js hj)
      (fun w hw => ((by decide : ∀ w ∈ chunkWindows ⟨1991, 1, 1⟩
        ⟨2012, 5, 10⟩ 2, dateLe ⟨1991, 1, 1⟩ w.1 ∧
        dateLe w.2 ⟨2012, 5, 10⟩) w hw).2) h78
    obtain ⟨out2, hm, _, hshape, _⟩ := mergePoupAux_chars "2012-06"
      itemsOld itemsNew
      (fun it hit => by
        obtain ⟨s, d, h1, h2, _⟩ := hOldB it hit
        exact ⟨s, d, h1, h2⟩)
      (fun it hit => by
        obtain ⟨s, d, h1, h2, _⟩ := hNewB it hit
        exact ⟨s, d, h1, h2⟩)
    replace hout : mergePoupAux "2012-06" itemsOld itemsNew = some out := hout
    rw [hm] at hout
    injection hout with hout
    subst hout
    obtain ⟨it, s, dd0, hsrc, hdat, hpar, hrd, _, _⟩ := hshape r hr
    have hb : dateLe dd0 ⟨2025, 9, 25⟩ := by
      rcases hsrc with hit | hit
      · obtain ⟨s2, d, h1, h2, h3⟩ := hOldB it hit
        have hss : s = s2 := by
          rw [hdat] at h1
          exact Option.some.inj h1
        rw [← hss] at h2
        have hdd : dd0 = d := by
          rw [hpar] at h2
          exact Option.some.inj h2
        rw [hdd]
        replace h3 : dateKey d ≤ 20120510 := h3
        show dateKey d ≤ dateKey ⟨2025, 9, 25⟩
        have h20 : dateKey (⟨2025, 9, 25⟩ : Date) = 20250925 := rfl
        rw [h20]
        omega
      · obtain ⟨s2, d, h1, h2, h3⟩ := hNewB it hit
        have hss : s = s2 := by
          rw [hdat] at h1
          exact Option.some.inj h1
        rw [← hss] at h2
        have hdd : dd0 = d := by
          rw [hpar] at h2
          exact Option.some.inj h2
        rw [hdd]
        exact h3
    obtain ⟨_, _, hm1, hm2, _, _, _⟩ := parseDateDMY_bounds hpar
    refine ⟨⟨dd0.year, dd0.month, 1⟩, hrd, ?_⟩
    replace hb : dd0.year * 10000 + dd0.month * 100 + dd0.day ≤ 20250925 := hb
    show dd0.year < 2025 ∨ (dd0.year = 2025 ∧ dd0.month ≤ 9)
    omega
  · rw [hempty hsy] at hout
    injection hout with hout
    subst hout
    cases hr

/-- Witness for `C10_upper_fetch_bound`: with a network returning
empty chunks and a start year past 2012 the merged candidate list is
empty. -/
theorem C10_upper_fetch_bound_witness :
    updatePoupancaItems (fun _ _ _ => (some [] : Option (List RawRecord)))
      2013 = some [] :=
  (C10_upper_fetch_bound (fun _ _ _ => (some [] : Option (List RawRecord)))
    2013 (fun serie a b js hj => by
      injection hj with hj
      subst hj
      intro r hr
      cases hr)).2.1 (by omega)
